import Mathlib

/-!
# ImageSequenceCanvasPlayer

A shallow embedding of `src/ImageSequenceCanvasPlayer.js`:

* `obURLsToArray`, the filename-sequence expansion, with its three regular
  expression helpers `lastNumber`, `basenameBefore`, `basenameAfter`;
* `drawImageWithObjectFit`, the object-fit geometry, over exact rationals;
* the playback controller (`play`, `pause`, `resume`, `togglePlay`, timer
  ticks) as a state machine with an explicit timer table and an event log;
* `handleImageLoad`, the counting of load completions and the actions taken
  when the last image has loaded.

JavaScript strings are modelled as lists of characters, the Numbers of
`obURLsToArray` as integer-valued doubles with their rounding, frame counts
and indices as natural numbers, and pixel sizes as rationals.
-/

namespace ImageSequenceCanvasPlayer

/-! ## Strings and the regular expressions of `obURLsToArray` -/

/-- A JavaScript string, as the list of its characters. -/
abbrev JSString := List Char

/-- The regular expression class `\d`: the ASCII decimal digits. -/
def isDigit (c : Char) : Bool := c.isDigit

/-- The characters the regular expression `.` does not match (no `s` flag):
LF, CR, U+2028 and U+2029. -/
def isLineTerminator (c : Char) : Bool :=
  c.toNat == 10 || c.toNat == 13 || c.toNat == 0x2028 || c.toNat == 0x2029

/-- The regular expression `.`. -/
def isDot (c : Char) : Bool := !isLineTerminator c

/-- Leftmost match: the matcher is tried at every start position of the
subject, from index 0 up to and including the end of the string, and the
first position where it succeeds gives the match. -/
def search (matchAt : JSString → Option JSString) : JSString → Option JSString
  | [] => matchAt []
  | c :: s =>
    match matchAt (c :: s) with
    | some m => some m
    | none => search matchAt s

/-- A greedy quantifier followed by a continuation: the quantified atom can
consume at most `n` characters; the counts `n, n - 1, ..., lo` are tried in
this order and the first one the continuation accepts is taken. -/
def backtrack (lo : Nat) (cont : Nat → Option JSString) : Nat → Option JSString
  | 0 => if lo = 0 then cont 0 else none
  | n + 1 =>
    if lo ≤ n + 1 then
      match cont (n + 1) with
      | some m => some m
      | none => backtrack lo cont n
    else none

/-- The pattern `.*\d` anchored at the start of `s`, as used inside the
negative lookahead of `lastNumber`: some digit occurs in `s` before the
first line terminator. -/
def dotStarDigit (s : JSString) : Bool := (s.takeWhile isDot).any isDigit

/-- The pattern `\d+(?!.*\d)` anchored at the start of `s`. -/
def lastNumberAt (s : JSString) : Option JSString :=
  backtrack 1 (fun k => if dotStarDigit (s.drop k) then none else some (s.take k))
    (s.takeWhile isDigit).length

/-- The helper `lastNumber`: `filename.match(/\d+(?!.*\d)/g)`, the first
element of the match array, or the empty string when there is no match. -/
def lastNumber (filename : JSString) : JSString :=
  match search lastNumberAt filename with
  | none => []
  | some m => m

/-- The pattern `.*(?=lastNum)` anchored at the start of `s`; `lastNum` is a
string of digits, so it stands for itself in the pattern. -/
def basenameBeforeAt (lastNum s : JSString) : Option JSString :=
  backtrack 0 (fun k => if lastNum.isPrefixOf (s.drop k) then some (s.take k) else none)
    (s.takeWhile isDot).length

/-- The helper `basenameBefore`: the match of `.*(?=lastNum)` in `filename`
(the match array has the single element the whole match), or the empty
string when there is no match. -/
def basenameBefore (filename lastNum : JSString) : JSString :=
  match search (basenameBeforeAt lastNum) filename with
  | none => []
  | some m => m

/-- The pattern `[^lastNum]+$` anchored at the start of `s`: `lastNum` is a
string of digits, so the class is the set of characters that are not one
of its digits; `$` (no `m` flag) holds only at the end of the subject. -/
def basenameAfterAt (lastNum s : JSString) : Option JSString :=
  backtrack 1 (fun k => if (s.drop k).isEmpty then some (s.take k) else none)
    (s.takeWhile (fun c => !lastNum.contains c)).length

/-- The helper `basenameAfter`: the match of `[^lastNum]+$` in `filename`,
or the empty string when there is no match. -/
def basenameAfter (filename lastNum : JSString) : JSString :=
  match search (basenameAfterAt lastNum) filename with
  | none => []
  | some m => m

/-- The mathematical value of the leading run of decimal digits of a string:
the integer that `parseInt` computes before it converts it to a Number. -/
def mathInt (s : JSString) : Nat :=
  (s.takeWhile isDigit).foldl (fun n c => 10 * n + (c.toNat - 48)) 0

/-- The Numbers the digit strings and the loop counter of `obURLsToArray` can
hold: a double whose value is a non-negative integer, or `Infinity`. -/
inductive JSNumber where
  | finite (value : Nat)
  | infinity
deriving DecidableEq, Repr

/-- The least `e` from `e` on, within `fuel` steps, with `n / 2 ^ e < 2 ^ 53`:
the binary exponent that leaves `n` a significand of 53 bits. -/
def exponentFrom (n : Nat) : Nat → Nat → Nat
  | 0, e => e
  | fuel + 1, e => if n / 2 ^ e < 2 ^ 53 then e else exponentFrom n fuel (e + 1)

/-- The significand of `n` at the binary exponent `e`, rounded to nearest:
the quotient `q` of `n` by `2 ^ e`, or `q + 1` when the `e` bits cut off are
more than half of `2 ^ e`, or exactly half with `q` odd (ties go to the even
significand). -/
def roundToEven (n e : Nat) : Nat :=
  let q := n / 2 ^ e
  let r := n % 2 ^ e
  let half := 2 ^ (e - 1)
  if half < r ∨ (r = half ∧ q % 2 = 1) then q + 1 else q

/-- The Number value of a natural number: the nearest double, ties going to
the even significand. Up to `2 ^ 53` every integer is a double; above, the
number is rounded to a significand `m` of 53 bits at the exponent `e`; a
result of `2 ^ 1024` or more is `Infinity`. -/
def toDouble (n : Nat) : JSNumber :=
  if n ≤ 2 ^ 53 then JSNumber.finite n
  else
    let e := exponentFrom n n 0
    let m := roundToEven n e
    if 971 < e ∨ (e = 971 ∧ m = 2 ^ 53) then JSNumber.infinity
    else JSNumber.finite (m * 2 ^ e)

/-- The function `parseInt` on a string that starts with decimal digits: the
Number value of the leading run of digits. (Past 20 significant digits the
language lets an engine replace further digits by 0; the digits are taken as
they are here, as engines do.) -/
def parseInt (s : JSString) : JSNumber := toDouble (mathInt s)

/-- The decimal form of a natural number. -/
def decimal (i : Nat) : JSString := Nat.toDigits 10 i

/-- A digit string `s` of `k` digits such that `s * 10 ^ (d - k)` converts to
the double `x`, if there is one: the candidates are the two multiples of
`10 ^ (d - k)` around `x`; of two that convert to `x` the closer one is
taken, the even one when they are equally close. -/
def shortestCandidate (x d k : Nat) : Option Nat :=
  let p := 10 ^ (d - k)
  let lo := x / p
  let hi := lo + 1
  let okLo : Bool := decide (10 ^ (k - 1) ≤ lo) && decide (toDouble (lo * p) = JSNumber.finite x)
  let okHi : Bool := decide (hi < 10 ^ k) && decide (toDouble (hi * p) = JSNumber.finite x)
  if okLo && okHi then
    if x - lo * p < hi * p - x then some lo
    else if hi * p - x < x - lo * p then some hi
    else if lo % 2 = 0 then some lo else some hi
  else if okLo then some lo
  else if okHi then some hi
  else none

/-- The text of a Number from its digit string `s` and the position `n` of
the decimal point: the digits followed by zeros up to `n` places for
`n ≤ 21`, and the exponent form `d.ddde+x` beyond. -/
def formatDecimal (s : JSString) (n : Nat) : JSString :=
  if n ≤ 21 then s ++ List.replicate (n - s.length) '0'
  else
    match s with
    | [] => []
    | [c] => c :: ('e' :: '+' :: Nat.toDigits 10 (n - 1))
    | c :: rest => c :: '.' :: (rest ++ ('e' :: '+' :: Nat.toDigits 10 (n - 1)))

/-- The text of an integer-valued double `x` above `2 ^ 53`: the shortest
digit string that converts back to `x`, in the format of `formatDecimal`.
When the next power of ten converts to `x`, the digit string is `1`. -/
def shortestDecimal (x : Nat) : JSString :=
  let d := (Nat.toDigits 10 x).length
  if toDouble (10 ^ d) = JSNumber.finite x then formatDecimal ['1'] (d + 1)
  else
    match (List.range' 1 d).findSome? (shortestCandidate x d) with
    | some s => formatDecimal (Nat.toDigits 10 s) d
    | none => Nat.toDigits 10 x

/-- The conversion `i + ""` of a Number: up to `2 ^ 53` the decimal form of
the integer, above it the shortest digit string that converts back to the
same double, and `Infinity`. -/
def numberToString : JSNumber → JSString
  | JSNumber.infinity => "Infinity".toList
  | JSNumber.finite n => if n ≤ 2 ^ 53 then decimal n else shortestDecimal n

/-- The comparison `i <= numB`. -/
def JSNumber.le : JSNumber → JSNumber → Bool
  | JSNumber.finite i, JSNumber.finite n => decide (i ≤ n)
  | JSNumber.finite _, JSNumber.infinity => true
  | JSNumber.infinity, JSNumber.finite _ => false
  | JSNumber.infinity, JSNumber.infinity => true

/-- The addition `i + every` of a Number and a step that is a natural
number (itself a double, as every argument the method can be given): the
Number value of the exact sum. -/
def JSNumber.add (i : JSNumber) (every : Nat) : JSNumber :=
  match i with
  | JSNumber.finite v => toDouble (v + every)
  | JSNumber.infinity => JSNumber.infinity

/-- The number of evaluations of the loop condition given to the loop from
`numA` to `numB`. A step that changes the counter raises it by 1 at least,
so `(numB + 1 - numA) + 1` evaluations are enough unless the counter stops
changing; with `Infinity` one evaluation decides. -/
def loopFuel : JSNumber → JSNumber → Nat
  | JSNumber.finite a, JSNumber.finite b => b + 1 - a + 1
  | _, _ => 1

/-- The method `padStart(maxLength, fill)` for a one-character fill string:
the string is returned unchanged when it already has `maxLength`
characters or more. -/
def padStart (s : JSString) (maxLength : Nat) (fill : Char) : JSString :=
  List.replicate (maxLength - s.length) fill ++ s

/-- The test `s.charAt(0) == 0` on a string that starts with a decimal
digit: the loose comparison converts the one-character string to a number,
which is 0 exactly for the digit `0`. -/
def charAt0EqZero (s : JSString) : Bool := s.head? == some '0'

/-- The argument `info` of `obURLsToArray`; its properties `from` and `to`
are destructured into `first` and `last`, each absent or a string. -/
structure Info where
  first : Option JSString
  last : Option JSString
deriving DecidableEq, Repr

/-- The negation `!x` of a value that is absent or a string: true for an
absent value and for the empty string. -/
def falsy : Option JSString → Bool
  | none => true
  | some [] => true
  | some (_ :: _) => false

/-- The loop `for (let i = numA; i <= numB; i += every) out.push(...)`, run
for at most `fuel` evaluations of the loop condition; `none` when the fuel
runs out before the condition fails. -/
def pushLoop (before after : JSString) (width every : Nat) (numB : JSNumber) :
    Nat → JSNumber → List JSString → Option (List JSString)
  | 0, _, _ => none
  | fuel + 1, i, out =>
    if JSNumber.le i numB then
      pushLoop before after width every numB fuel (JSNumber.add i every)
        (out ++ [before ++ padStart (numberToString i) width '0' ++ after])
    else some out

/-- The static method `obURLsToArray(info, every)`, for a step `every` that
is a natural number. Every warning path returns the empty array. The loop is
given `loopFuel numA numB` evaluations of its condition; the result is `none`
when the source loop does not terminate: the counter stops changing while it
is at most `numB`, because `every` is 0 or because the sum `i + every`
rounds back to `i`. -/
def obURLsToArray (info : Info) (every : Nat) : Option (List JSString) :=
  if falsy info.first || falsy info.last then some []
  else
    match info.first, info.last with
    | some first, some last =>
      let a := lastNumber first
      if a = [] then some []
      else
        let b := lastNumber last
        if b = [] then some []
        else
          let before := basenameBefore first a
          let after := basenameAfter first a
          if before ≠ basenameBefore last b ∨ after ≠ basenameAfter last b then some []
          else
            let hasLeadingZeroes := charAt0EqZero a || charAt0EqZero b
            if hasLeadingZeroes && a.length != b.length then some []
            else
              let numA := parseInt a
              let numB := parseInt b
              pushLoop before after a.length every numB (loopFuel numA numB) numA []
    | _, _ => some []

/-- The string `a` is the rightmost maximal run of decimal digits of the
string `P ++ a ++ S`: it is a non-empty run of digits, no digit follows it,
and the character before it, if any, is not a digit. -/
def IsLastDigitRun (P a S : JSString) : Prop :=
  a ≠ [] ∧ (∀ c ∈ a, isDigit c = true) ∧ (∀ c ∈ S, isDigit c = false) ∧
    (∀ c ∈ P.getLast?, isDigit c = false)

/-- The string has no line terminator. -/
def NoLineTerminator (s : JSString) : Prop := ∀ c ∈ s, isLineTerminator c = false

instance (P a S : JSString) : Decidable (IsLastDigitRun P a S) := by
  unfold IsLastDigitRun
  infer_instance

instance (s : JSString) : Decidable (NoLineTerminator s) := by
  unfold NoLineTerminator
  infer_instance

/-- The number of values `i = numA, numA + every, numA + 2 * every, ...` with
`i ≤ numB`. -/
def rangeCount (numA numB every : Nat) : Nat :=
  if numA ≤ numB then (numB - numA) / every + 1 else 0

/-- The names `P + zero_pad(i, width) + S` for `i = numA, numA + every, ...`
while `i ≤ numB`, in this order, with the decimal form of `i` padded. -/
def expectedNames (P S : JSString) (width numA numB every : Nat) : List JSString :=
  (List.range' numA (rangeCount numA numB every) every).map
    (fun i => P ++ padStart (decimal i) width '0' ++ S)

/-! ## Object-fit geometry -/

/-- A width and a height, in pixels: the `width` and `height` properties of
an image or of the canvas. -/
structure Size where
  width : ℚ
  height : ℚ
deriving DecidableEq

/-- The arguments of the call `ctx.drawImage(img, posX, posY, imgWidth,
imgHeight)` that ends `drawImageWithObjectFit`. -/
structure DrawCall where
  posX : ℚ
  posY : ℚ
  imgWidth : ℚ
  imgHeight : ℚ
deriving DecidableEq

/-- The method `split(sep)` for a one-character separator: the pieces between
the occurrences of the separator, empty pieces included. -/
def split (sep : Char) : JSString → List JSString
  | [] => [[]]
  | c :: s =>
    if c = sep then [] :: split sep s
    else
      match split sep s with
      | [] => [[c]]
      | w :: ws => (c :: w) :: ws

/-- The body of `positions.forEach(pos => { switch (pos) ... })`: one keyword
updates the pair `(posX, posY)`. -/
def positionStep (canvas : Size) (imgWidth imgHeight : ℚ) (positions : List JSString)
    (p : ℚ × ℚ) (pos : JSString) : ℚ × ℚ :=
  if pos = "left".toList then (0, p.2)
  else if pos = "right".toList then (canvas.width - imgWidth, p.2)
  else if pos = "top".toList then (p.1, 0)
  else if pos = "bottom".toList then (p.1, canvas.height - imgHeight)
  else if pos = "center".toList then
    if positions.contains "left".toList || positions.contains "right".toList then
      (p.1, (canvas.height - imgHeight) / 2)
    else if positions.contains "top".toList || positions.contains "bottom".toList then
      ((canvas.width - imgWidth) / 2, p.2)
    else ((canvas.width - imgWidth) / 2, (canvas.height - imgHeight) / 2)
  else p

/-- The sizing part of `drawImageWithObjectFit`: the pair `(imgWidth,
imgHeight)` after the `contain`/`cover` block. The divisions are exact; the
source divides by `img.height`, `ctx.canvas.height` and `imgRatio`, and a
zero divisor is outside what this embedding describes. -/
def fitSize (canvas img : Size) (objectFit : JSString) : ℚ × ℚ :=
  let canvasRatio := canvas.width / canvas.height
  let imgRatio := img.width / img.height
  if objectFit = "contain".toList ∨ objectFit = "cover".toList then
    let doCover : Bool := decide (objectFit = "cover".toList)
    if (imgRatio > canvasRatio ∧ doCover = true) ∨ (imgRatio < canvasRatio ∧ doCover = false) then
      (canvas.height * imgRatio, canvas.height)
    else
      (canvas.width, canvas.width / imgRatio)
  else (img.width, img.height)

/-- The static method `drawImageWithObjectFit(ctx, img, objectFit,
objectPosition)`, as the `drawImage` call it issues: `posX` and `posY` start
at 0, the size starts at the natural size of the image and is replaced in
the `contain` and `cover` modes, and the keywords of `objectPosition` are
applied from left to right. -/
def drawImageWithObjectFit (canvas img : Size) (objectFit objectPosition : JSString) :
    DrawCall :=
  let size := fitSize canvas img objectFit
  let positions := split ' ' objectPosition
  let pos := positions.foldl (positionStep canvas size.1 size.2 positions) (0, 0)
  { posX := pos.1, posY := pos.2, imgWidth := size.1, imgHeight := size.2 }

/-- The horizontal offset that goes with a horizontal keyword: 0 for `left`,
half the free width for `center`, the whole free width for any other
keyword (`right`). -/
def offsetXFor (canvas : Size) (drawW : ℚ) (h : JSString) : ℚ :=
  if h = "left".toList then 0
  else if h = "center".toList then (canvas.width - drawW) / 2
  else canvas.width - drawW

/-- The vertical offset that goes with a vertical keyword: 0 for `top`, half
the free height for `center`, the whole free height for any other keyword
(`bottom`). -/
def offsetYFor (canvas : Size) (drawH : ℚ) (v : JSString) : ℚ :=
  if v = "top".toList then 0
  else if v = "center".toList then (canvas.height - drawH) / 2
  else canvas.height - drawH

/-! ## The playback controller -/

/-- The callbacks the player hands to `setTimeout`: the tick `playFrame`, and
the deferred calls `() => this.play()`, `() => this.pause()` and
`() => this.resume()`. -/
inductive TimerTask where
  | playFrame
  | play
  | pause
  | resume
deriving DecidableEq, Repr

/-- What the player does to its collaborators: the canvas calls of
`drawImageWithObjectFit`, the notification callbacks, and an uncaught
`TypeError`. -/
inductive Event where
  | clearRect
  | drawImage (frameIndex : Nat)
  | onFrameChange (frameIndex : Nat)
  | onLoop
  | typeError
deriving DecidableEq, Repr

/-- The options the controller reads during playback; for a callback the
field says whether one is installed. -/
structure Options where
  loop : Bool
  firstFrameIndex : Nat
  onFrameChange : Bool
  onLoop : Bool
deriving DecidableEq, Repr

/-- The player object together with the timers of the host that it has armed
and the log of its effects. `imageCount` is `this.images.length`; `timers`
holds the pending `setTimeout` entries by id, `nextTimerId` is the id the
next `setTimeout` returns. -/
structure Player where
  options : Options
  imageCount : Nat
  currentFrameIndex : Nat
  isPlaying : Bool
  animationFrameId : Option Nat
  timers : List (Nat × TimerTask)
  nextTimerId : Nat
  log : List Event
deriving DecidableEq, Repr

/-- The state a call leaves, and whether the call ended by throwing. -/
structure Outcome where
  state : Player
  threw : Bool
deriving DecidableEq, Repr

/-- The playback state the constructor sets up, for `imageCount` image URLs. -/
def construct (options : Options) (imageCount : Nat) : Player :=
  { options := options
    imageCount := imageCount
    currentFrameIndex := options.firstFrameIndex
    isPlaying := false
    animationFrameId := none
    timers := []
    nextTimerId := 0
    log := [] }

/-- The host function `setTimeout(task, delay)`: the task is entered in the
timer table under a fresh id, which is returned. -/
def setTimeout (p : Player) (task : TimerTask) : Nat × Player :=
  (p.nextTimerId,
    { p with timers := p.timers ++ [(p.nextTimerId, task)], nextTimerId := p.nextTimerId + 1 })

/-- The host function `clearTimeout(id)`: the entry with that id, if any, is
removed; `null` and ids that are not pending are ignored. -/
def clearTimeout (p : Player) (id : Option Nat) : Player :=
  match id with
  | none => p
  | some i => { p with timers := p.timers.filter (fun t => t.1 != i) }

/-- The method `renderFrame(frameIndex)`: `drawImageWithObjectFit` clears the
canvas and then reads `img.width`, which throws a `TypeError` when
`this.images[frameIndex]` is `undefined`; otherwise the image is drawn and
`onFrameChange`, when installed, is called with the index. -/
def renderFrame (p : Player) (frameIndex : Nat) : Outcome :=
  if frameIndex < p.imageCount then
    { state := { p with log := p.log ++ [Event.clearRect, Event.drawImage frameIndex] ++
        (if p.options.onFrameChange then [Event.onFrameChange frameIndex] else []) }
      threw := false }
  else
    { state := { p with log := p.log ++ [Event.clearRect, Event.typeError] }, threw := true }

/-- The method `pause()` without a delay. -/
def pauseNow (p : Player) : Player :=
  if !p.isPlaying then p
  else { clearTimeout p p.animationFrameId with isPlaying := false }

/-- The method `pause(delay)`. -/
def pause (p : Player) (delay : Nat) : Player :=
  if delay ≠ 0 then (setTimeout p TimerTask.pause).2
  else pauseNow p

/-- The closure `playFrame` of `play`: render the current frame, advance the
index, wrap or stop at the end of the sequence, and arm the next tick. -/
def playFrame (p : Player) : Outcome :=
  let r := renderFrame p p.currentFrameIndex
  if r.threw then r
  else
    let p1 : Player := { r.state with currentFrameIndex := r.state.currentFrameIndex + 1 }
    if p1.currentFrameIndex ≥ p1.imageCount then
      if p1.options.loop then
        let p2 : Player := { p1 with currentFrameIndex := 0 }
        let p3 : Player := if p2.options.onLoop then { p2 with log := p2.log ++ [Event.onLoop] } else p2
        let t := setTimeout p3 TimerTask.playFrame
        { state := { t.2 with animationFrameId := some t.1 }, threw := false }
      else
        { state := pause p1 0, threw := false }
    else
      let t := setTimeout p1 TimerTask.playFrame
      { state := { t.2 with animationFrameId := some t.1 }, threw := false }

/-- The method `play(delay)`. -/
def play (p : Player) (delay : Nat) : Outcome :=
  if delay ≠ 0 then { state := (setTimeout p TimerTask.play).2, threw := false }
  else if p.isPlaying then { state := p, threw := false }
  else playFrame { p with isPlaying := true }

/-- The method `togglePlay(delay)`. -/
def togglePlay (p : Player) (delay : Nat) : Outcome :=
  if p.isPlaying then { state := pause p delay, threw := false } else play p delay

/-- The method `resume(delay)`. -/
def resume (p : Player) (delay : Nat) : Outcome :=
  if delay ≠ 0 then { state := (setTimeout p TimerTask.resume).2, threw := false }
  else if p.isPlaying then { state := p, threw := false }
  else play p 0

/-- The host fires the pending timer `id`: the entry leaves the timer table
and its task runs. Nothing happens when no timer with that id is pending. -/
def fire (p : Player) (id : Nat) : Outcome :=
  match p.timers.find? (fun t => t.1 == id) with
  | none => { state := p, threw := false }
  | some t =>
    let q := { p with timers := p.timers.filter (fun u => u.1 != id) }
    match t.2 with
    | TimerTask.playFrame => playFrame q
    | TimerTask.play => play q 0
    | TimerTask.pause => { state := pause q 0, threw := false }
    | TimerTask.resume => resume q 0

/-- What can happen to a player: a call of one of its four playback methods
with a delay (0 for none), or the host firing a pending timer. -/
inductive Action where
  | play (delay : Nat)
  | pause (delay : Nat)
  | resume (delay : Nat)
  | togglePlay (delay : Nat)
  | fire (id : Nat)
deriving DecidableEq, Repr

/-- The outcome of one action. -/
def Action.run (p : Player) : Action → Outcome
  | Action.play d => ImageSequenceCanvasPlayer.play p d
  | Action.pause d => { state := ImageSequenceCanvasPlayer.pause p d, threw := false }
  | Action.resume d => ImageSequenceCanvasPlayer.resume p d
  | Action.togglePlay d => ImageSequenceCanvasPlayer.togglePlay p d
  | Action.fire id => ImageSequenceCanvasPlayer.fire p id

/-- An action without a delay: a method called with no delay, or a timer
firing. -/
def Action.noDelay : Action → Bool
  | Action.play d => d == 0
  | Action.pause d => d == 0
  | Action.resume d => d == 0
  | Action.togglePlay d => d == 0
  | Action.fire _ => true

/-- The state after a sequence of actions; an action that throws leaves the
state it had reached, and the sequence goes on from there. -/
def runActions (p : Player) : List Action → Player
  | [] => p
  | a :: as => runActions (a.run p).state as

/-- The timer tick: the host fires the timer whose id is in
`animationFrameId`. -/
def tick (p : Player) : Outcome :=
  match p.animationFrameId with
  | none => { state := p, threw := false }
  | some id => fire p id

/-- The state after the first `n` executions of `playFrame` of a playback:
none, then `play()`, then one timer tick after the other. -/
def playAndTick (p : Player) : Nat → Player
  | 0 => p
  | 1 => (play p 0).state
  | n + 2 => (tick (playAndTick p (n + 1))).state

/-- The frame indices of the `drawImage` calls of a log, in order. -/
def renderedFrames (log : List Event) : List Nat :=
  log.filterMap (fun e => match e with
    | Event.drawImage i => some i
    | _ => none)

/-- What a player has logged since it was in the state `p`. -/
def loggedSince (p q : Player) : List Event := q.log.drop p.log.length

/-- The events of one successful `renderFrame(i)`. -/
def frameEvents (o : Options) (i : Nat) : List Event :=
  [Event.clearRect, Event.drawImage i] ++ (if o.onFrameChange then [Event.onFrameChange i] else [])

/-- The events of the first `m` executions of `playFrame` of a looping
playback over `n` frames that starts at frame 0. -/
def loopLog (o : Options) (n : Nat) : Nat → List Event
  | 0 => []
  | m + 1 => loopLog o n m ++ frameEvents o (m % n) ++
      (if m % n + 1 = n ∧ o.onLoop = true then [Event.onLoop] else [])

/-- The part of the state an index-range invariant is about: a looping
player over `n` frames whose index is in range. -/
def LoopInRange (n : Nat) (p : Player) : Prop :=
  p.options.loop = true ∧ p.imageCount = n ∧ p.currentFrameIndex < n

/-- A call or tick that started in the state `p` has rendered the last frame
and has left the player stopped: it did not throw, it rendered exactly the
frame `imageCount - 1`, `isPlaying` is false, no timer is pending, and
nothing but `play`, `resume` or `togglePlay` changes the state again
(`pause()` and the firing of any timer id leave it as it is). -/
def StoppedAfterLastFrame (p : Player) (o : Outcome) : Prop :=
  o.threw = false ∧
  renderedFrames (loggedSince p o.state) = [p.imageCount - 1] ∧
  o.state.isPlaying = false ∧
  o.state.timers = [] ∧
  ∀ as : List Action, (∀ a ∈ as, a = Action.pause 0 ∨ ∃ i, a = Action.fire i) →
    runActions o.state as = o.state

/-- The timer invariant of a playing or paused player: the timer table holds
exactly the tick whose id is in `animationFrameId` when `isPlaying` is true,
and nothing when it is false. -/
def TickInv (p : Player) : Prop :=
  (p.isPlaying = true →
    ∃ id, p.animationFrameId = some id ∧ p.timers = [(id, TimerTask.playFrame)]) ∧
  (p.isPlaying = false → p.timers = [])

/-- The frame indices of the `onFrameChange` notifications of a log, in
order. -/
def notifiedFrames (log : List Event) : List Nat :=
  log.filterMap (fun e => match e with
    | Event.onFrameChange i => some i
    | _ => none)

/-- The events of the first `m` executions of `playFrame` of a looping
playback over `n` frames that starts at frame `f`. -/
def playbackLog (o : Options) (n f : Nat) : Nat → List Event
  | 0 => []
  | m + 1 => playbackLog o n f m ++ frameEvents o ((f + m) % n) ++
      (if (f + m) % n + 1 = n ∧ o.onLoop = true then [Event.onLoop] else [])

/-- Whether an action executes `playFrame` in the state `p`: `play()`,
`resume()` and `togglePlay()` do when called without delay on a player that
is not playing; a firing timer does when its task is the tick `playFrame`,
or a deferred `play()` or `resume()` on a player that is not playing;
`pause()`, every call with a delay, and the firing of an id that is not
pending do not. -/
def Action.executesPlayFrame (p : Player) : Action → Bool
  | Action.play d => d == 0 && !p.isPlaying
  | Action.pause _ => false
  | Action.resume d => d == 0 && !p.isPlaying
  | Action.togglePlay d => d == 0 && !p.isPlaying
  | Action.fire id =>
    match p.timers.find? (fun t => t.1 == id) with
    | none => false
    | some t =>
      match t.2 with
      | TimerTask.playFrame => true
      | TimerTask.play => !p.isPlaying
      | TimerTask.pause => false
      | TimerTask.resume => !p.isPlaying

/-- The number of executions of `playFrame` in a sequence of actions that
starts in the state `p`. -/
def playFrameCount (p : Player) : List Action → Nat
  | [] => 0
  | a :: as => (if a.executesPlayFrame p = true then 1 else 0) + playFrameCount (a.run p).state as

/-- The player has executed `playFrame` `m` times since its construction with
the options `o` over `n` frames: its log is the log of these `m` executions
and its index is `m` steps after `firstFrameIndex`. -/
def PlaybackAt (o : Options) (n m : Nat) (p : Player) : Prop :=
  p.options = o ∧ p.imageCount = n ∧
    p.currentFrameIndex = (o.firstFrameIndex + m) % n ∧
    p.log = playbackLog o n o.firstFrameIndex m

/-- What one action does to a looping player in the state `p`: the options
and the image count stay; an action that executes `playFrame` logs the
events of one `renderFrame(currentFrameIndex)`, and the `onLoop` notification
after the last frame, and advances the index by one modulo `n`; any other
action logs nothing and leaves the index. -/
def StepEffect (n : Nat) (p : Player) (a : Action) : Prop :=
  (a.run p).state.options = p.options ∧
  (a.run p).state.imageCount = p.imageCount ∧
  (a.run p).state.currentFrameIndex =
    (if a.executesPlayFrame p = true then (p.currentFrameIndex + 1) % n
      else p.currentFrameIndex) ∧
  (a.run p).state.log = p.log ++
    (if a.executesPlayFrame p = true then
      frameEvents p.options p.currentFrameIndex ++
        (if p.currentFrameIndex + 1 = n ∧ p.options.onLoop = true then [Event.onLoop] else [])
    else [])

/-! ## Loading -/

/-- The options `handleImageLoad` reads; for a callback the field says
whether one is installed. -/
structure LoadOptions where
  onLoadProgress : Bool
  onLoad : Bool
  renderFirstImageOnLoad : Bool
  playOnLoad : Bool
  sizeToFirstImage : Bool
deriving DecidableEq, Repr

/-- What `handleImageLoad` does besides rendering and playing: the progress
notification with the fraction it reports, the sizing of the canvas to the
image at an index, the `onLoad` notification, and an uncaught `TypeError`. -/
inductive LoadEvent where
  | onLoadProgress (fraction : ℚ)
  | sizeCanvas (index : Nat)
  | onLoad
  | typeError
deriving DecidableEq

/-- The player while its images load: the playback state, the loading
options, the counter `loadedImagesCount` and the log of the loading
events. -/
structure Loader where
  player : Player
  loadOptions : LoadOptions
  loadedImagesCount : Nat
  loadLog : List LoadEvent

/-- The state the constructor leaves: no image has completed. -/
def startLoading (options : Options) (loadOptions : LoadOptions) (imageCount : Nat) : Loader :=
  { player := construct options imageCount
    loadOptions := loadOptions
    loadedImagesCount := 0
    loadLog := [] }

/-- The method `handleImageLoad(index)`, with whether it ended by throwing.
The counter is incremented and the fraction `loadedImagesCount /
imageUrls.length` is reported; when the counter equals the number of images,
the canvas is sized to `images[firstFrameIndex]` if asked for (destructuring
`undefined` throws), `onLoad` is called, the first frame is rendered and
`play()` is called, each if asked for. The argument `index` is not used. -/
def handleImageLoad (s : Loader) (_index : Nat) : Loader × Bool :=
  let s1 : Loader := { s with loadedImagesCount := s.loadedImagesCount + 1 }
  let s2 : Loader :=
    if s1.loadOptions.onLoadProgress then
      { s1 with loadLog := s1.loadLog ++
          [LoadEvent.onLoadProgress ((s1.loadedImagesCount : ℚ) / (s1.player.imageCount : ℚ))] }
    else s1
  if s2.loadedImagesCount = s2.player.imageCount then
    if s2.loadOptions.sizeToFirstImage = true ∧
        ¬ s2.player.options.firstFrameIndex < s2.player.imageCount then
      ({ s2 with loadLog := s2.loadLog ++ [LoadEvent.typeError] }, true)
    else
      let s3 : Loader :=
        if s2.loadOptions.sizeToFirstImage then
          { s2 with loadLog := s2.loadLog ++
              [LoadEvent.sizeCanvas s2.player.options.firstFrameIndex] }
        else s2
      let s4 : Loader :=
        if s3.loadOptions.onLoad then { s3 with loadLog := s3.loadLog ++ [LoadEvent.onLoad] }
        else s3
      let r : Outcome :=
        if s4.loadOptions.renderFirstImageOnLoad then
          renderFrame s4.player s4.player.options.firstFrameIndex
        else { state := s4.player, threw := false }
      if r.threw then ({ s4 with player := r.state }, true)
      else if s4.loadOptions.playOnLoad then
        ({ s4 with player := (play r.state 0).state }, (play r.state 0).threw)
      else ({ s4 with player := r.state }, false)
  else (s2, false)

/-- The state after the load completions of the images `order`, in this
order. -/
def completeLoads (s : Loader) (order : List Nat) : Loader :=
  order.foldl (fun t i => (handleImageLoad t i).1) s

/-- The fractions reported to `onLoadProgress`, in order. -/
def progressFractions (log : List LoadEvent) : List ℚ :=
  log.filterMap (fun e => match e with
    | LoadEvent.onLoadProgress q => some q
    | _ => none)

/-- The player after the ready actions: the optional render of the first
frame, then the optional `play()`, from the constructed state. -/
def readyPlayer (o : Options) (lo : LoadOptions) (n : Nat) : Player :=
  let r : Player :=
    if lo.renderFirstImageOnLoad then (renderFrame (construct o n) o.firstFrameIndex).state
    else construct o n
  if lo.playOnLoad then (play r 0).state else r

/-- The loading log after `k` completions out of `n` images with a valid
first frame: one progress event per completion, and the events of the ready
actions after the `n`-th. -/
def loadLogAfter (o : Options) (lo : LoadOptions) (n : Nat) : Nat → List LoadEvent
  | 0 => []
  | k + 1 => loadLogAfter o lo n k ++
      (if lo.onLoadProgress then [LoadEvent.onLoadProgress (((k + 1 : Nat) : ℚ) / (n : ℚ))]
        else []) ++
      (if k + 1 = n then
        (if lo.sizeToFirstImage then [LoadEvent.sizeCanvas o.firstFrameIndex] else []) ++
          (if lo.onLoad then [LoadEvent.onLoad] else [])
      else [])

/-! ## Theorems: object-fit geometry -/

theorem fitSize_cover (canvas img : Size) :
    fitSize canvas img "cover".toList =
      if img.width / img.height > canvas.width / canvas.height then
        (canvas.height * (img.width / img.height), canvas.height)
      else (canvas.width, canvas.width / (img.width / img.height)) := by
  have h1 : ("cover".toList = "contain".toList) = False := by decide
  simp [fitSize, h1]

theorem fitSize_contain (canvas img : Size) :
    fitSize canvas img "contain".toList =
      if img.width / img.height < canvas.width / canvas.height then
        (canvas.height * (img.width / img.height), canvas.height)
      else (canvas.width, canvas.width / (img.width / img.height)) := by
  have h1 : ("contain".toList = "cover".toList) = False := by decide
  simp [fitSize, h1]

theorem drawImageWithObjectFit_size (canvas img : Size) (fit pos : JSString) :
    ((drawImageWithObjectFit canvas img fit pos).imgWidth,
      (drawImageWithObjectFit canvas img fit pos).imgHeight) = fitSize canvas img fit := by
  simp [drawImageWithObjectFit]

theorem cover_example_size :
    fitSize ⟨100, 100⟩ ⟨200, 100⟩ "cover".toList = (200, 100) := by
  rw [fitSize_cover]
  norm_num

theorem contain_example_size :
    fitSize ⟨100, 100⟩ ⟨200, 100⟩ "contain".toList = (100, 50) := by
  rw [fitSize_contain]
  norm_num

/-- C2: in `cover` mode, for positive sizes, the image is drawn at the canvas
height and width `targetH * sourceW / sourceH` when the image ratio exceeds
the canvas ratio, and at the canvas width and height
`targetW * sourceH / sourceW` otherwise; the drawn rectangle keeps the source
aspect ratio and covers the canvas, with equality on at least one axis. -/
theorem cover_draw_size (canvas img : Size) (pos : JSString)
    (hiw : 0 < img.width) (hih : 0 < img.height) (hch : 0 < canvas.height) :
    (img.width / img.height > canvas.width / canvas.height →
      (drawImageWithObjectFit canvas img "cover".toList pos).imgHeight = canvas.height ∧
      (drawImageWithObjectFit canvas img "cover".toList pos).imgWidth
        = canvas.height * img.width / img.height) ∧
    (¬ img.width / img.height > canvas.width / canvas.height →
      (drawImageWithObjectFit canvas img "cover".toList pos).imgWidth = canvas.width ∧
      (drawImageWithObjectFit canvas img "cover".toList pos).imgHeight
        = canvas.width * img.height / img.width) ∧
    (drawImageWithObjectFit canvas img "cover".toList pos).imgWidth * img.height
      = (drawImageWithObjectFit canvas img "cover".toList pos).imgHeight * img.width ∧
    canvas.width ≤ (drawImageWithObjectFit canvas img "cover".toList pos).imgWidth ∧
    canvas.height ≤ (drawImageWithObjectFit canvas img "cover".toList pos).imgHeight ∧
    ((drawImageWithObjectFit canvas img "cover".toList pos).imgWidth = canvas.width ∨
      (drawImageWithObjectFit canvas img "cover".toList pos).imgHeight = canvas.height) := by
  have hs := drawImageWithObjectFit_size canvas img "cover".toList pos
  rw [fitSize_cover] at hs
  have hiw0 : img.width ≠ 0 := ne_of_gt hiw
  have hih0 : img.height ≠ 0 := ne_of_gt hih
  have hch0 : canvas.height ≠ 0 := ne_of_gt hch
  by_cases hwide : img.width / img.height > canvas.width / canvas.height
  · rw [if_pos hwide] at hs
    obtain ⟨hw, hh⟩ := Prod.mk.inj hs
    have hlt : canvas.width * img.height < img.width * canvas.height := by
      have := (div_lt_div_iff₀ hch hih).1 hwide
      linarith
    refine ⟨fun _ => ⟨hh, by rw [hw]; ring⟩, fun h => absurd hwide h, ?_, ?_, ?_, Or.inr hh⟩
    · rw [hw, hh]; field_simp
    · rw [hw, mul_div_assoc']
      rw [le_div_iff₀ hih]
      linarith
    · rw [hh]
  · rw [if_neg hwide] at hs
    obtain ⟨hw, hh⟩ := Prod.mk.inj hs
    have hle : img.width * canvas.height ≤ canvas.width * img.height := by
      have := (div_le_div_iff₀ hih hch).1 (not_lt.1 hwide)
      linarith
    refine ⟨fun h => absurd h hwide, fun _ => ⟨hw, by rw [hh]; field_simp⟩, ?_, ?_, ?_,
      Or.inl hw⟩
    · rw [hw, hh]; field_simp
    · rw [hw]
    · rw [hh, div_div_eq_mul_div]
      rw [le_div_iff₀ hiw]
      linarith

/-- A witness for C2: a 200 by 100 image in a 100 by 100 canvas is drawn at
200 by 100. -/
theorem cover_draw_size_witness :
    (drawImageWithObjectFit ⟨100, 100⟩ ⟨200, 100⟩ "cover".toList
        "center center".toList).imgWidth = 200 ∧
    (drawImageWithObjectFit ⟨100, 100⟩ ⟨200, 100⟩ "cover".toList
        "center center".toList).imgHeight = 100 := by
  have h := (cover_draw_size ⟨100, 100⟩ ⟨200, 100⟩ "center center".toList
    (by norm_num) (by norm_num) (by norm_num)).1 (by norm_num)
  refine ⟨?_, h.1⟩
  rw [h.2]
  norm_num

/-- C3: in `contain` mode, for positive sizes, the image is drawn at the
smaller of the two candidate sizes `(targetH * sourceW / sourceH, targetH)`
and `(targetW, targetW * sourceH / sourceW)`; the drawn rectangle keeps the
source aspect ratio, fits inside the canvas with equality on at least one
axis, and is on neither axis larger than the `cover` rectangle. -/
theorem contain_draw_size (canvas img : Size) (pos : JSString)
    (hiw : 0 < img.width) (hih : 0 < img.height) (hch : 0 < canvas.height) :
    (drawImageWithObjectFit canvas img "contain".toList pos).imgWidth
      = min (canvas.height * img.width / img.height) canvas.width ∧
    (drawImageWithObjectFit canvas img "contain".toList pos).imgHeight
      = min canvas.height (canvas.width * img.height / img.width) ∧
    (drawImageWithObjectFit canvas img "contain".toList pos).imgWidth * img.height
      = (drawImageWithObjectFit canvas img "contain".toList pos).imgHeight * img.width ∧
    (drawImageWithObjectFit canvas img "contain".toList pos).imgWidth ≤ canvas.width ∧
    (drawImageWithObjectFit canvas img "contain".toList pos).imgHeight ≤ canvas.height ∧
    ((drawImageWithObjectFit canvas img "contain".toList pos).imgWidth = canvas.width ∨
      (drawImageWithObjectFit canvas img "contain".toList pos).imgHeight = canvas.height) ∧
    (drawImageWithObjectFit canvas img "contain".toList pos).imgWidth
      ≤ (drawImageWithObjectFit canvas img "cover".toList pos).imgWidth ∧
    (drawImageWithObjectFit canvas img "contain".toList pos).imgHeight
      ≤ (drawImageWithObjectFit canvas img "cover".toList pos).imgHeight := by
  have hs := drawImageWithObjectFit_size canvas img "contain".toList pos
  have hc := drawImageWithObjectFit_size canvas img "cover".toList pos
  rw [fitSize_contain] at hs
  rw [fitSize_cover] at hc
  have hiw0 : img.width ≠ 0 := ne_of_gt hiw
  have hih0 : img.height ≠ 0 := ne_of_gt hih
  have e1 : canvas.height * (img.width / img.height) = canvas.height * img.width / img.height := by
    ring
  have e2 : canvas.width / (img.width / img.height) = canvas.width * img.height / img.width := by
    field_simp
  rw [e1, e2] at hs hc
  by_cases hnarrow : img.width / img.height < canvas.width / canvas.height
  · have hlt : img.width * canvas.height < canvas.width * img.height :=
      (div_lt_div_iff₀ hih hch).1 hnarrow
    have hwlt : canvas.height * img.width / img.height < canvas.width := by
      rw [div_lt_iff₀ hih]; linarith
    have hhlt : canvas.height < canvas.width * img.height / img.width := by
      rw [lt_div_iff₀ hiw]; linarith
    rw [if_pos hnarrow] at hs
    rw [if_neg (not_lt.2 (le_of_lt hnarrow))] at hc
    obtain ⟨hw, hh⟩ := Prod.mk.inj hs
    obtain ⟨hw2, hh2⟩ := Prod.mk.inj hc
    refine ⟨?_, ?_, ?_, ?_, ?_, Or.inr hh, ?_, ?_⟩
    · rw [hw, min_eq_left (le_of_lt hwlt)]
    · rw [hh, min_eq_left (le_of_lt hhlt)]
    · rw [hw, hh]; field_simp
    · rw [hw]; exact le_of_lt hwlt
    · rw [hh]
    · rw [hw, hw2]; exact le_of_lt hwlt
    · rw [hh, hh2]; exact le_of_lt hhlt
  · have hle : canvas.width * img.height ≤ img.width * canvas.height :=
      (div_le_div_iff₀ hch hih).1 (not_lt.1 hnarrow)
    have hwle : canvas.width ≤ canvas.height * img.width / img.height := by
      rw [le_div_iff₀ hih]; linarith
    have hhle : canvas.width * img.height / img.width ≤ canvas.height := by
      rw [div_le_iff₀ hiw]; linarith
    rw [if_neg hnarrow] at hs
    obtain ⟨hw, hh⟩ := Prod.mk.inj hs
    refine ⟨?_, ?_, ?_, ?_, ?_, Or.inl hw, ?_, ?_⟩
    · rw [hw, min_eq_right hwle]
    · rw [hh, min_eq_right hhle]
    · rw [hw, hh]; field_simp
    · rw [hw]
    · rw [hh]; exact hhle
    · by_cases hwide : img.width / img.height > canvas.width / canvas.height
      · rw [if_pos hwide] at hc
        rw [hw, (Prod.mk.inj hc).1]; exact hwle
      · rw [if_neg hwide] at hc
        rw [hw, (Prod.mk.inj hc).1]
    · by_cases hwide : img.width / img.height > canvas.width / canvas.height
      · rw [if_pos hwide] at hc
        rw [hh, (Prod.mk.inj hc).2]; exact hhle
      · rw [if_neg hwide] at hc
        rw [hh, (Prod.mk.inj hc).2]

/-- A witness for C3: a 200 by 100 image in a 100 by 100 canvas is drawn at
100 by 50. -/
theorem contain_draw_size_witness :
    (drawImageWithObjectFit ⟨100, 100⟩ ⟨200, 100⟩ "contain".toList
        "center center".toList).imgWidth = 100 ∧
    (drawImageWithObjectFit ⟨100, 100⟩ ⟨200, 100⟩ "contain".toList
        "center center".toList).imgHeight = 50 := by
  have h := contain_draw_size ⟨100, 100⟩ ⟨200, 100⟩ "center center".toList
    (by norm_num) (by norm_num) (by norm_num)
  refine ⟨?_, ?_⟩
  · rw [h.1]; norm_num
  · rw [h.2.1]; norm_num

/-- In every mode other than `contain` and `cover`, and so in `fill` mode, the
image is drawn at its natural size. -/
theorem other_mode_draws_natural_size (canvas img : Size) (fit pos : JSString)
    (h1 : fit ≠ "contain".toList) (h2 : fit ≠ "cover".toList) :
    (drawImageWithObjectFit canvas img fit pos).imgWidth = img.width ∧
    (drawImageWithObjectFit canvas img fit pos).imgHeight = img.height := by
  have h : ¬ (fit = "contain".toList ∨ fit = "cover".toList) := by
    rintro (h | h)
    · exact h1 h
    · exact h2 h
  simp only [drawImageWithObjectFit, fitSize, if_neg h, and_self]

/-- C4, at the failing input: in `fill` mode a 200 by 100 image in a 100 by
100 canvas is drawn at 200 by 100, its natural size, and not at the canvas
size 100 by 100. -/
theorem fill_draws_natural_size_not_canvas_size :
    (drawImageWithObjectFit ⟨100, 100⟩ ⟨200, 100⟩ "fill".toList
        "center center".toList).imgWidth = 200 ∧
    (drawImageWithObjectFit ⟨100, 100⟩ ⟨200, 100⟩ "fill".toList
        "center center".toList).imgHeight = 100 ∧
    (drawImageWithObjectFit ⟨100, 100⟩ ⟨200, 100⟩ "fill".toList
        "center center".toList).imgWidth ≠ (Size.mk 100 100).width := by
  have h := other_mode_draws_natural_size ⟨100, 100⟩ ⟨200, 100⟩ "fill".toList
    "center center".toList (by decide) (by decide)
  refine ⟨h.1, h.2, ?_⟩
  rw [h.1]
  norm_num

/-- C7: for a horizontal keyword `h` and a vertical keyword `v`, the anchors
`h v` and `v h` give the same offsets: `posX` is 0 for `left`, half the free
width for `center` and the free width for `right`, and `posY` is 0 for `top`,
half the free height for `center` and the free height for `bottom`, whatever
the drawn size and the canvas size. -/
theorem anchor_pair_offsets (canvas img : Size) (fit h v : JSString)
    (hh : h ∈ ["left".toList, "center".toList, "right".toList])
    (hv : v ∈ ["top".toList, "center".toList, "bottom".toList]) :
    (drawImageWithObjectFit canvas img fit (h ++ ' ' :: v)).posX
      = offsetXFor canvas (drawImageWithObjectFit canvas img fit (h ++ ' ' :: v)).imgWidth h ∧
    (drawImageWithObjectFit canvas img fit (h ++ ' ' :: v)).posY
      = offsetYFor canvas (drawImageWithObjectFit canvas img fit (h ++ ' ' :: v)).imgHeight v ∧
    (drawImageWithObjectFit canvas img fit (v ++ ' ' :: h)).posX
      = (drawImageWithObjectFit canvas img fit (h ++ ' ' :: v)).posX ∧
    (drawImageWithObjectFit canvas img fit (v ++ ' ' :: h)).posY
      = (drawImageWithObjectFit canvas img fit (h ++ ' ' :: v)).posY := by
  simp only [List.mem_cons, List.mem_singleton, List.not_mem_nil, or_false] at hh hv
  rcases hh with rfl | rfl | rfl <;> rcases hv with rfl | rfl | rfl <;>
    simp [drawImageWithObjectFit, split, positionStep, offsetXFor, offsetYFor]

/-- A witness for C7: `cover` of a 200 by 100 image into a 100 by 100 canvas
with the anchor `center center` gives `posX = -50` and `posY = 0`. -/
theorem anchor_pair_offsets_witness :
    (drawImageWithObjectFit ⟨100, 100⟩ ⟨200, 100⟩ "cover".toList
        "center center".toList).posX = -50 ∧
    (drawImageWithObjectFit ⟨100, 100⟩ ⟨200, 100⟩ "cover".toList
        "center center".toList).posY = 0 := by
  have h := anchor_pair_offsets ⟨100, 100⟩ ⟨200, 100⟩ "cover".toList "center".toList
    "center".toList (by decide) (by decide)
  have e : "center".toList ++ ' ' :: "center".toList = "center center".toList := by decide
  rw [e] at h
  have hs := drawImageWithObjectFit_size ⟨100, 100⟩ ⟨200, 100⟩ "cover".toList
    "center center".toList
  rw [cover_example_size] at hs
  obtain ⟨hw, hh⟩ := Prod.mk.inj hs
  refine ⟨?_, ?_⟩
  · rw [h.1, hw]
    unfold offsetXFor
    rw [if_neg (by decide), if_pos rfl]
    norm_num
  · rw [h.2.1, hh]
    unfold offsetYFor
    rw [if_neg (by decide), if_pos rfl]
    norm_num

/-- C8, counterexample: with the anchor `left` alone, `contain` of a 200 by
100 image into a 100 by 100 canvas is drawn 50 high at `posY = 0`, not at the
centred offset `(100 - 50) / 2`. -/
theorem single_keyword_not_centered :
    (drawImageWithObjectFit ⟨100, 100⟩ ⟨200, 100⟩ "contain".toList "left".toList).posY = 0 ∧
    (drawImageWithObjectFit ⟨100, 100⟩ ⟨200, 100⟩ "contain".toList "left".toList).posY
      ≠ ((Size.mk 100 100).height
          - (drawImageWithObjectFit ⟨100, 100⟩ ⟨200, 100⟩ "contain".toList
              "left".toList).imgHeight) / 2 := by
  have hs := drawImageWithObjectFit_size ⟨100, 100⟩ ⟨200, 100⟩ "contain".toList "left".toList
  rw [contain_example_size] at hs
  obtain ⟨-, hh⟩ := Prod.mk.inj hs
  have hp : (drawImageWithObjectFit ⟨100, 100⟩ ⟨200, 100⟩ "contain".toList
      "left".toList).posY = 0 := by
    simp [drawImageWithObjectFit, split, positionStep]
  refine ⟨hp, ?_⟩
  rw [hp, hh]
  norm_num

/-- C8, amended: with one of the anchors `left`, `right`, `top`, `bottom`
alone, the axis the anchor does not name keeps the offset 0: `posY = 0` for
`left` and `right`, `posX = 0` for `top` and `bottom`, whatever the drawn size
and the canvas size. -/
theorem single_keyword_offsets (canvas img : Size) (fit : JSString) :
    (drawImageWithObjectFit canvas img fit "left".toList).posY = 0 ∧
    (drawImageWithObjectFit canvas img fit "right".toList).posY = 0 ∧
    (drawImageWithObjectFit canvas img fit "top".toList).posX = 0 ∧
    (drawImageWithObjectFit canvas img fit "bottom".toList).posX = 0 := by
  simp [drawImageWithObjectFit, split, positionStep]

/-! ## Theorems: playback -/

/-- C5, at the failing input: one frame, `loop` off. After `play()` the
player has stopped with `currentFrameIndex = 1`, the number of images, and
the next `play()` reads `images[1]` and throws. -/
theorem nonloop_play_leaves_index_out_of_range :
    Action.noDelay (Action.play 0) = true ∧
    (construct ⟨false, 0, false, false⟩ 1).currentFrameIndex = 0 ∧
    (runActions (construct ⟨false, 0, false, false⟩ 1) [Action.play 0]).imageCount = 1 ∧
    (runActions (construct ⟨false, 0, false, false⟩ 1) [Action.play 0]).currentFrameIndex = 1 ∧
    (play (runActions (construct ⟨false, 0, false, false⟩ 1) [Action.play 0]) 0).threw
      = true := by
  decide

theorem playFrame_loop (p : Player) (hloop : p.options.loop = true)
    (hcur : p.currentFrameIndex < p.imageCount) :
    (playFrame p).state =
      { p with
        currentFrameIndex := (p.currentFrameIndex + 1) % p.imageCount
        log := p.log ++ frameEvents p.options p.currentFrameIndex ++
          (if p.currentFrameIndex + 1 = p.imageCount ∧ p.options.onLoop = true
            then [Event.onLoop] else [])
        timers := p.timers ++ [(p.nextTimerId, TimerTask.playFrame)]
        nextTimerId := p.nextTimerId + 1
        animationFrameId := some p.nextTimerId } := by
  by_cases hend : p.currentFrameIndex + 1 = p.imageCount
  · have hge : p.currentFrameIndex + 1 ≥ p.imageCount := by omega
    have hmod : (p.currentFrameIndex + 1) % p.imageCount = 0 := by
      rw [hend]; exact Nat.mod_self _
    by_cases hon : p.options.onLoop = true
    · simp [playFrame, renderFrame, hcur, hloop, hge, setTimeout, frameEvents, hend, hon, hmod]
    · simp [playFrame, renderFrame, hcur, hloop, hge, setTimeout, frameEvents, hend, hon, hmod]
  · have hlt : p.currentFrameIndex + 1 < p.imageCount := by omega
    have hmod : (p.currentFrameIndex + 1) % p.imageCount = p.currentFrameIndex + 1 :=
      Nat.mod_eq_of_lt hlt
    have hnge : ¬ p.imageCount ≤ p.currentFrameIndex + 1 := by omega
    simp [playFrame, renderFrame, hcur, hnge, setTimeout, frameEvents, hend, hmod]

theorem find_fresh (ts : List (Nat × TimerTask)) (id : Nat) (task : TimerTask)
    (h : ∀ t ∈ ts, t.1 < id) :
    (ts ++ [(id, task)]).find? (fun t => t.1 == id) = some (id, task) := by
  induction ts with
  | nil => simp
  | cons t ts ih =>
    have ht : (t.1 == id) = false := by
      have := h t (List.mem_cons_self _ _)
      simp only [beq_eq_false_iff_ne, ne_eq]
      omega
    rw [List.cons_append, List.find?_cons, ht]
    exact ih (fun u hu => h u (List.mem_cons_of_mem _ hu))

theorem filter_fresh (ts : List (Nat × TimerTask)) (id : Nat) (task : TimerTask)
    (h : ∀ t ∈ ts, t.1 < id) :
    (ts ++ [(id, task)]).filter (fun u => u.1 != id) = ts := by
  induction ts with
  | nil => simp
  | cons t ts ih =>
    have ht : (t.1 != id) = true := by
      have := h t (List.mem_cons_self _ _)
      simp only [bne_iff_ne, ne_eq]
      omega
    rw [List.cons_append, List.filter_cons, ht, if_pos rfl,
      ih (fun u hu => h u (List.mem_cons_of_mem _ hu))]

theorem playAndTick_loop (p : Player) (hN : 0 < p.imageCount)
    (hloop : p.options.loop = true) (hcur : p.currentFrameIndex = 0)
    (hplay : p.isPlaying = false) (hfresh : ∀ t ∈ p.timers, t.1 < p.nextTimerId) (m : Nat) :
    playAndTick p (m + 1) =
      { p with
        isPlaying := true
        currentFrameIndex := (m + 1) % p.imageCount
        log := p.log ++ loopLog p.options p.imageCount (m + 1)
        timers := p.timers ++ [(p.nextTimerId + m, TimerTask.playFrame)]
        nextTimerId := p.nextTimerId + m + 1
        animationFrameId := some (p.nextTimerId + m) } := by
  induction m with
  | zero =>
    have h1 : ({ p with isPlaying := true } : Player).options.loop = true := hloop
    have h2 : ({ p with isPlaying := true } : Player).currentFrameIndex
        < ({ p with isPlaying := true } : Player).imageCount := by
      show p.currentFrameIndex < p.imageCount
      omega
    show (play p 0).state = _
    simp only [play, hplay, ne_eq, not_true_eq_false, if_false, Bool.false_eq_true]
    rw [playFrame_loop _ h1 h2]
    simp [hcur, loopLog, Nat.zero_mod]
  | succ m ih =>
    show (tick (playAndTick p (m + 1))).state = _
    rw [ih]
    have hlt : (m + 1) % p.imageCount < p.imageCount := Nat.mod_lt _ hN
    have hmod : ((m + 1) % p.imageCount + 1) % p.imageCount = (m + 1 + 1) % p.imageCount := by
      rw [Nat.add_mod (m + 1) 1, Nat.add_mod ((m + 1) % p.imageCount) 1, Nat.mod_mod]
    have hfr : ∀ t ∈ p.timers, t.1 < p.nextTimerId + m := fun t ht => by
      have := hfresh t ht
      omega
    simp only [tick, fire, find_fresh p.timers _ TimerTask.playFrame hfr,
      filter_fresh p.timers _ TimerTask.playFrame hfr]
    rw [playFrame_loop _ (by exact hloop) (by exact hlt)]
    simp [hmod, loopLog, List.append_assoc, Nat.add_assoc]

theorem renderedFrames_append (l₁ l₂ : List Event) :
    renderedFrames (l₁ ++ l₂) = renderedFrames l₁ ++ renderedFrames l₂ := by
  simp [renderedFrames, List.filterMap_append]

theorem renderedFrames_frameEvents (o : Options) (i : Nat) :
    renderedFrames (frameEvents o i) = [i] := by
  cases h : o.onFrameChange <;> simp [renderedFrames, frameEvents, h]

theorem count_onLoop_frameEvents (o : Options) (i : Nat) :
    (frameEvents o i).count Event.onLoop = 0 := by
  cases h : o.onFrameChange <;> simp [frameEvents, h]

theorem renderedFrames_loopLog (o : Options) (n m : Nat) :
    renderedFrames (loopLog o n m) = (List.range m).map (fun i => i % n) := by
  induction m with
  | zero => simp [loopLog, renderedFrames]
  | succ m ih =>
    rw [loopLog, renderedFrames_append, renderedFrames_append, ih, renderedFrames_frameEvents,
      List.range_succ, List.map_append]
    by_cases h : m % n + 1 = n ∧ o.onLoop = true
    · simp [h, renderedFrames]
    · simp [h, renderedFrames]

theorem count_onLoop_loopLog (o : Options) (n m : Nat) (hn : 0 < n) (hon : o.onLoop = true) :
    (loopLog o n m).count Event.onLoop = m / n := by
  induction m with
  | zero => simp [loopLog]
  | succ m ih =>
    rw [loopLog, List.count_append, List.count_append, ih, count_onLoop_frameEvents,
      Nat.succ_div]
    have hlt : m % n < n := Nat.mod_lt _ hn
    have hdvd : n ∣ m + 1 ↔ m % n + 1 = n := by
      rw [Nat.dvd_iff_mod_eq_zero, Nat.add_mod]
      constructor
      · intro h
        by_contra hne
        have h1 : m % n + 1 < n := by omega
        have h2 : 1 % n ≤ 1 := Nat.mod_le 1 n
        have h3 : 1 % n = 1 := by
          apply Nat.mod_eq_of_lt
          omega
        rw [h3, Nat.mod_eq_of_lt h1] at h
        omega
      · intro h
        have h3 : m % n + 1 % n = n ∨ m % n + 1 % n = 0 := by
          rcases Nat.lt_or_ge 1 n with h1 | h1
          · left; rw [Nat.mod_eq_of_lt h1]; exact h
          · have : n = 1 := by omega
            subst this
            right; simp [Nat.mod_one]
        rcases h3 with h3 | h3
        · rw [h3]; exact Nat.mod_self n
        · rw [h3]; exact Nat.zero_mod n
    by_cases h : m % n + 1 = n
    · simp [h, hon, hdvd]
    · simp [h, hdvd]

theorem count_onLoop_loopLog_off (o : Options) (n m : Nat) (hoff : o.onLoop = false) :
    (loopLog o n m).count Event.onLoop = 0 := by
  induction m with
  | zero => simp [loopLog]
  | succ m ih =>
    rw [loopLog, List.count_append, List.count_append, ih, count_onLoop_frameEvents]
    simp [hoff]

/-- C6: with `loop` on, `N > 0` frames and `currentFrameIndex = 0` when
`play()` starts on a paused player (whose pending timers have ids below the
next fresh id, as `setTimeout` ensures), the first `N` executions of
`playFrame` render the frames `0, 1, ..., N - 1` in this order, and after
`k * N` executions `currentFrameIndex` is 0 again and `onLoop`, when a
callback is installed, has been called exactly `k` times (and is never
called when none is installed). -/
theorem loop_playback_cycle (p : Player) (hN : 0 < p.imageCount)
    (hloop : p.options.loop = true)
    (hcur : p.currentFrameIndex = 0) (hplay : p.isPlaying = false)
    (hfresh : ∀ t ∈ p.timers, t.1 < p.nextTimerId) :
    renderedFrames (loggedSince p (playAndTick p p.imageCount)) = List.range p.imageCount ∧
    ∀ k : Nat,
      (playAndTick p (k * p.imageCount)).currentFrameIndex = 0 ∧
      (loggedSince p (playAndTick p (k * p.imageCount))).count Event.onLoop
        = if p.options.onLoop = true then k else 0 := by
  have key : ∀ m : Nat, (playAndTick p m).currentFrameIndex = m % p.imageCount ∧
      loggedSince p (playAndTick p m) = loopLog p.options p.imageCount m := by
    intro m
    cases m with
    | zero => simp [playAndTick, hcur, loggedSince, loopLog]
    | succ m =>
      rw [playAndTick_loop p hN hloop hcur hplay hfresh m]
      simp [loggedSince]
  refine ⟨?_, fun k => ⟨?_, ?_⟩⟩
  · rw [(key _).2, renderedFrames_loopLog]
    apply List.ext_getElem
    · simp
    · intro i h1 h2
      simp only [List.length_map, List.length_range] at h1
      simp [Nat.mod_eq_of_lt h1]
  · rw [(key _).1, Nat.mul_mod_left]
  · rw [(key _).2]
    by_cases hon : p.options.onLoop = true
    · rw [if_pos hon, count_onLoop_loopLog _ _ _ hN hon, Nat.mul_div_cancel _ hN]
    · rw [if_neg hon, count_onLoop_loopLog_off _ _ _ (by simpa using hon)]

/-- A witness for C6: a player constructed for 3 frames with `loop` and an
`onLoop` callback renders 0, 1, 2 and has looped twice after 6 executions; a
player without the callback renders the same frames. -/
theorem loop_playback_cycle_witness :
    renderedFrames (loggedSince (construct ⟨true, 0, true, true⟩ 3)
      (playAndTick (construct ⟨true, 0, true, true⟩ 3) 3)) = [0, 1, 2] ∧
    (playAndTick (construct ⟨true, 0, true, true⟩ 3) (2 * 3)).currentFrameIndex = 0 ∧
    (loggedSince (construct ⟨true, 0, true, true⟩ 3)
      (playAndTick (construct ⟨true, 0, true, true⟩ 3) (2 * 3))).count Event.onLoop = 2 ∧
    renderedFrames (loggedSince (construct ⟨true, 0, false, false⟩ 3)
      (playAndTick (construct ⟨true, 0, false, false⟩ 3) 3)) = [0, 1, 2] :=
  ⟨(loop_playback_cycle (construct ⟨true, 0, true, true⟩ 3) (by decide) rfl rfl rfl
      (by decide)).1,
    ((loop_playback_cycle (construct ⟨true, 0, true, true⟩ 3) (by decide) rfl rfl rfl
      (by decide)).2 2).1,
    ((loop_playback_cycle (construct ⟨true, 0, true, true⟩ 3) (by decide) rfl rfl rfl
      (by decide)).2 2).2,
    (loop_playback_cycle (construct ⟨true, 0, false, false⟩ 3) (by decide) rfl rfl rfl
      (by decide)).1⟩

theorem pause_loopInRange (n : Nat) (p : Player) (d : Nat) (h : LoopInRange n p) :
    LoopInRange n (pause p d) := by
  unfold pause pauseNow
  split
  · exact h
  · split
    · exact h
    · cases hid : p.animationFrameId <;> simpa [clearTimeout, hid, LoopInRange] using h

theorem playFrame_loopInRange (n : Nat) (p : Player) (h : LoopInRange n p) :
    LoopInRange n (playFrame p).state := by
  obtain ⟨h1, h2, h3⟩ := h
  rw [playFrame_loop p h1 (by omega)]
  refine ⟨h1, h2, ?_⟩
  show (p.currentFrameIndex + 1) % p.imageCount < n
  rw [h2]
  exact Nat.mod_lt _ (by omega)

theorem play_loopInRange (n : Nat) (p : Player) (d : Nat) (h : LoopInRange n p) :
    LoopInRange n (play p d).state := by
  unfold play
  split
  · exact h
  · split
    · exact h
    · exact playFrame_loopInRange n _ h

theorem resume_loopInRange (n : Nat) (p : Player) (d : Nat) (h : LoopInRange n p) :
    LoopInRange n (resume p d).state := by
  unfold resume
  split
  · exact h
  · split
    · exact h
    · exact play_loopInRange n p 0 h

theorem fire_loopInRange (n : Nat) (p : Player) (id : Nat) (h : LoopInRange n p) :
    LoopInRange n (fire p id).state := by
  unfold fire
  split
  · exact h
  · have hq : LoopInRange n { p with timers := p.timers.filter (fun u => u.1 != id) } := h
    split
    · exact playFrame_loopInRange n _ hq
    · exact play_loopInRange n _ 0 hq
    · exact pause_loopInRange n _ 0 hq
    · exact resume_loopInRange n _ 0 hq

theorem run_loopInRange (n : Nat) (p : Player) (a : Action) (h : LoopInRange n p) :
    LoopInRange n (a.run p).state := by
  cases a with
  | play d => exact play_loopInRange n p d h
  | pause d => exact pause_loopInRange n p d h
  | resume d => exact resume_loopInRange n p d h
  | togglePlay d =>
    show LoopInRange n (togglePlay p d).state
    unfold togglePlay
    split
    · exact pause_loopInRange n p d h
    · exact play_loopInRange n p d h
  | fire id => exact fire_loopInRange n p id h

/-- With `loop` on, the index stays in range: in every state reached from
construction with `firstFrameIndex < n` by any sequence of actions,
`currentFrameIndex < n`. -/
theorem loop_index_in_range (o : Options) (n : Nat) (hloop : o.loop = true)
    (hfirst : o.firstFrameIndex < n) (as : List Action) :
    (runActions (construct o n) as).currentFrameIndex < n := by
  have h0 : LoopInRange n (construct o n) := ⟨hloop, rfl, hfirst⟩
  have gen : ∀ (as : List Action) (p : Player), LoopInRange n p →
      LoopInRange n (runActions p as) := by
    intro as
    induction as with
    | nil => intro p hp; exact hp
    | cons a as ih => intro p hp; exact ih _ (run_loopInRange n p a hp)
  exact (gen as _ h0).2.2

/-! ## Theorems: filename sequences -/

theorem search_hit (f : JSString → Option JSString) (s m : JSString) (h : f s = some m) :
    search f s = some m := by
  cases s with
  | nil => simpa [search] using h
  | cons c s => simp [search, h]

theorem search_skip (f : JSString → Option JSString) (X R : JSString)
    (h : ∀ i, i < X.length → f (X.drop i ++ R) = none) :
    search f (X ++ R) = search f R := by
  induction X with
  | nil => rfl
  | cons c X ih =>
    have h0 : f (c :: X ++ R) = none := h 0 (by simp)
    have hrest : ∀ i, i < X.length → f (X.drop i ++ R) = none := by
      intro i hi
      have := h (i + 1) (by simp; omega)
      simpa using this
    show search f (c :: (X ++ R)) = _
    rw [search]
    rw [show c :: (X ++ R) = c :: X ++ R from rfl, h0]
    exact ih hrest

theorem backtrack_none (lo : Nat) (cont : Nat → Option JSString) (n : Nat)
    (h : ∀ k, lo ≤ k → k ≤ n → cont k = none) : backtrack lo cont n = none := by
  induction n with
  | zero =>
    unfold backtrack
    split
    · exact h 0 (by omega) (le_refl _)
    · rfl
  | succ n ih =>
    unfold backtrack
    split
    · rw [h (n + 1) (by assumption) (le_refl _)]
      exact ih (fun k hk hkn => h k hk (by omega))
    · rfl

theorem backtrack_first (lo : Nat) (cont : Nat → Option JSString) (n j : Nat) (m : JSString)
    (hlo : lo ≤ j) (hjn : j ≤ n) (hj : cont j = some m)
    (h : ∀ k, j < k → k ≤ n → cont k = none) : backtrack lo cont n = some m := by
  induction n with
  | zero =>
    have hj0 : j = 0 := by omega
    subst hj0
    unfold backtrack
    rw [if_pos (by omega), hj]
  | succ n ih =>
    unfold backtrack
    by_cases hjn1 : j = n + 1
    · subst hjn1
      rw [if_pos hlo, hj]
    · rw [if_pos (by omega), h (n + 1) (by omega) (le_refl _)]
      exact ih (by omega) (fun k hk hkn => h k hk (by omega))

theorem takeWhile_length_lt (p : Char → Bool) (Y R : JSString)
    (h : ∃ c ∈ Y, p c = false) : (List.takeWhile p (Y ++ R)).length < Y.length := by
  induction Y with
  | nil => simp at h
  | cons y Y ih =>
    by_cases hy : p y = true
    · have h2 : ∃ c ∈ Y, p c = false := by
        obtain ⟨c, hc, hpc⟩ := h
        rcases List.mem_cons.1 hc with rfl | hc
        · rw [hy] at hpc; cases hpc
        · exact ⟨c, hc, hpc⟩
      simp only [List.cons_append, List.takeWhile_cons, hy, if_true, List.length_cons]
      have := ih h2
      omega
    · simp [List.takeWhile_cons, hy]

theorem isDot_of_isDigit (c : Char) (h : isDigit c = true) : isDot c = true := by
  simp only [isDigit, Char.isDigit, Bool.and_eq_true, decide_eq_true_eq] at h
  obtain ⟨h1, h2⟩ := h
  have h1n : 48 ≤ c.toNat := h1
  have h2n : c.toNat ≤ 57 := h2
  simp only [isDot, isLineTerminator, Bool.not_eq_true', Bool.or_eq_false_iff, beq_eq_false_iff_ne,
    ne_eq]
  omega

theorem exists_mem_drop_of_getLast (q : Char → Prop) (L : JSString) (i : Nat)
    (hi : i < L.length) (hL : ∀ c ∈ L.getLast?, q c) : ∃ c ∈ L.drop i, q c := by
  have hne : (L.drop i).getLast? = L.getLast? := by
    rw [List.getLast?_drop, if_neg (by omega)]
  cases hl : L.getLast? with
  | none =>
    rw [List.getLast?_eq_none_iff] at hl
    subst hl
    simp at hi
  | some c =>
    rw [hl] at hne
    exact ⟨c, List.mem_of_getLast?_eq_some hne, hL c (by rw [hl]; rfl)⟩

theorem dotStarDigit_true (X a S : JSString) (hX : NoLineTerminator X) (ha : a ≠ [])
    (had : ∀ c ∈ a, isDigit c = true) : dotStarDigit (X ++ (a ++ S)) = true := by
  have hXd : ∀ c ∈ X, isDot c = true := by
    intro c hc
    simp [isDot, hX c hc]
  have had2 : ∀ c ∈ a, isDot c = true := fun c hc => isDot_of_isDigit c (had c hc)
  unfold dotStarDigit
  rw [List.takeWhile_append_of_pos hXd, List.takeWhile_append_of_pos had2]
  cases a with
  | nil => exact absurd rfl ha
  | cons c a =>
    simp only [List.any_append, List.any_cons, Bool.or_eq_true]
    exact Or.inr (Or.inl (Or.inl (had c (List.mem_cons_self _ _))))

theorem dotStarDigit_false (S : JSString) (hS : ∀ c ∈ S, isDigit c = false) :
    dotStarDigit S = false := by
  unfold dotStarDigit
  rw [List.any_eq_false]
  intro c hc
  have := hS c ((List.takeWhile_sublist isDot).subset hc)
  simp [this]

theorem takeWhile_eq_nil_of_all_false (p : Char → Bool) (S : JSString)
    (hS : ∀ c ∈ S, p c = false) : List.takeWhile p S = [] := by
  cases S with
  | nil => rfl
  | cons c S => simp [List.takeWhile_cons, hS c (List.mem_cons_self _ _)]

theorem lastNumberAt_none (X a S : JSString) (hX : NoLineTerminator X)
    (hXd : ∃ c ∈ X, isDigit c = false) (ha : a ≠ []) (had : ∀ c ∈ a, isDigit c = true) :
    lastNumberAt (X ++ (a ++ S)) = none := by
  unfold lastNumberAt
  apply backtrack_none
  intro k _ hk
  have hlt := takeWhile_length_lt isDigit X (a ++ S) hXd
  have hkX : k ≤ X.length := by omega
  rw [List.drop_append_of_le_length hkX]
  have hdrop : NoLineTerminator (X.drop k) := fun c hc => hX c (List.mem_of_mem_drop hc)
  rw [dotStarDigit_true _ a S hdrop ha had]
  rfl

theorem lastNumberAt_hit (a S : JSString) (ha : a ≠ []) (had : ∀ c ∈ a, isDigit c = true)
    (hS : ∀ c ∈ S, isDigit c = false) : lastNumberAt (a ++ S) = some a := by
  unfold lastNumberAt
  have hlen : (List.takeWhile isDigit (a ++ S)).length = a.length := by
    rw [List.takeWhile_append_of_pos had, takeWhile_eq_nil_of_all_false isDigit S hS]
    simp
  rw [hlen]
  have hpos : 1 ≤ a.length := by
    cases a with
    | nil => exact absurd rfl ha
    | cons c a => simp
  apply backtrack_first 1 _ a.length a.length a hpos (le_refl _)
  · simp [dotStarDigit_false S hS]
  · intro k hk hk2
    omega

theorem lastNumber_eq (P a S : JSString) (h : IsLastDigitRun P a S) (hP : NoLineTerminator P) :
    lastNumber (P ++ a ++ S) = a := by
  obtain ⟨ha, had, hS, hPl⟩ := h
  unfold lastNumber
  rw [List.append_assoc, search_skip lastNumberAt P (a ++ S), search_hit _ _ a
    (lastNumberAt_hit a S ha had hS)]
  intro i hi
  exact lastNumberAt_none _ a S (fun c hc => hP c (List.mem_of_mem_drop hc))
    (exists_mem_drop_of_getLast (fun c => isDigit c = false) P i hi hPl) ha had

theorem leadingDigits_drop (a S : JSString) (j : Nat) (had : ∀ c ∈ a, isDigit c = true)
    (hS : ∀ c ∈ S, isDigit c = false) :
    (List.takeWhile isDigit ((a ++ S).drop j)).length = a.length - j := by
  rw [List.drop_append_eq_append_drop,
    List.takeWhile_append_of_pos (fun c hc => had c (List.mem_of_mem_drop hc)),
    takeWhile_eq_nil_of_all_false isDigit _ (fun c hc => hS c (List.mem_of_mem_drop hc))]
  simp

theorem not_isPrefixOf_drop (a S : JSString) (j : Nat) (hj : 1 ≤ j) (ha : a ≠ [])
    (had : ∀ c ∈ a, isDigit c = true) (hS : ∀ c ∈ S, isDigit c = false) :
    a.isPrefixOf ((a ++ S).drop j) = false := by
  rw [Bool.eq_false_iff]
  intro h
  rw [List.isPrefixOf_iff_prefix] at h
  obtain ⟨t, ht⟩ := h
  have h1 := leadingDigits_drop a S j had hS
  rw [← ht, List.takeWhile_append_of_pos had, List.length_append] at h1
  have hpos : 1 ≤ a.length := by
    cases a with
    | nil => exact absurd rfl ha
    | cons c a => simp
  omega

theorem basenameBefore_eq (P a S : JSString) (h : IsLastDigitRun P a S)
    (hP : NoLineTerminator P) : basenameBefore (P ++ a ++ S) a = P := by
  obtain ⟨ha, had, hS, -⟩ := h
  unfold basenameBefore
  have hPd : ∀ c ∈ P, isDot c = true := by
    intro c hc
    simp [isDot, hP c hc]
  have hat : basenameBeforeAt a (P ++ a ++ S) = some P := by
    unfold basenameBeforeAt
    rw [List.append_assoc]
    apply backtrack_first 0 _ _ P.length P (Nat.zero_le _)
    · rw [List.takeWhile_append_of_pos hPd, List.length_append]
      omega
    · simp [List.isPrefixOf_iff_prefix]
    · intro k hk _
      have hk2 : k = P.length + (k - P.length) := by omega
      rw [hk2, List.drop_append, not_isPrefixOf_drop a S _ (by omega) ha had hS]
      rfl
  rw [search_hit _ _ P hat]

theorem basenameAfterAt_none (a Y S : JSString) (hY : ∃ c ∈ Y, (!a.contains c) = false) :
    basenameAfterAt a (Y ++ S) = none := by
  unfold basenameAfterAt
  apply backtrack_none
  intro k _ hk
  have hlt := takeWhile_length_lt (fun c => !a.contains c) Y S hY
  have hne : (List.drop k (Y ++ S)).isEmpty = false := by
    rw [Bool.eq_false_iff, ne_eq, List.isEmpty_iff, List.drop_eq_nil_iff, List.length_append]
    omega
  rw [hne]
  rfl

theorem basenameAfterAt_hit (a S : JSString) (hne : S ≠ [])
    (had : ∀ c ∈ a, isDigit c = true) (hS : ∀ c ∈ S, isDigit c = false) :
    basenameAfterAt a S = some S := by
  unfold basenameAfterAt
  have hall : ∀ c ∈ S, (!a.contains c) = true := by
    intro c hc
    have hca : c ∉ a := by
      intro hmem
      have := had c hmem
      rw [hS c hc] at this
      cases this
    simp [hca]
  have htw : List.takeWhile (fun c => !a.contains c) S = S :=
    List.takeWhile_eq_self_iff.2 hall
  rw [htw]
  have hpos : 1 ≤ S.length := by
    cases S with
    | nil => exact absurd rfl hne
    | cons c S => simp
  apply backtrack_first 1 _ S.length S.length S hpos (le_refl _)
  · simp
  · intro k hk hk2
    omega

theorem basenameAfter_eq (P a S : JSString) (h : IsLastDigitRun P a S) :
    basenameAfter (P ++ a ++ S) a = S := by
  obtain ⟨ha, had, hS, -⟩ := h
  unfold basenameAfter
  have hskip : search (basenameAfterAt a) (P ++ a ++ S) = search (basenameAfterAt a) S := by
    apply search_skip
    intro i hi
    apply basenameAfterAt_none
    apply exists_mem_drop_of_getLast (fun c => (!a.contains c) = false) (P ++ a) i hi
    intro c hc
    rw [List.getLast?_append_of_ne_nil P ha] at hc
    have hmem : c ∈ a := List.mem_of_getLast?_eq_some hc
    simp [hmem]
  rw [hskip]
  cases hS0 : S with
  | nil => simp [search, basenameAfterAt, backtrack]
  | cons c S1 =>
    rw [← hS0, search_hit _ _ S (basenameAfterAt_hit a S (by rw [hS0]; simp) had hS)]

theorem rangeCount_succ (i numB every : Nat) (hev : 0 < every) (hi : i ≤ numB) :
    rangeCount i numB every = rangeCount (i + every) numB every + 1 := by
  unfold rangeCount
  rw [if_pos hi]
  by_cases h : i + every ≤ numB
  · rw [if_pos h]
    have e : numB - i = (numB - (i + every)) + every := by omega
    rw [e, Nat.add_div_right _ hev]
  · rw [if_neg h]
    have hlt : numB - i < every := by omega
    rw [Nat.div_eq_of_lt hlt]

theorem toDouble_of_le (n : Nat) (h : n ≤ 2 ^ 53) : toDouble n = JSNumber.finite n := by
  unfold toDouble
  rw [if_pos h]

theorem numberToString_of_le (n : Nat) (h : n ≤ 2 ^ 53) :
    numberToString (JSNumber.finite n) = decimal n := by
  show (if n ≤ 2 ^ 53 then decimal n else shortestDecimal n) = decimal n
  rw [if_pos h]

theorem parseInt_of_le (a : JSString) (h : mathInt a ≤ 2 ^ 53) :
    parseInt a = JSNumber.finite (mathInt a) :=
  toDouble_of_le _ h

theorem exponentFrom_le (n : Nat) : ∀ fuel e : Nat, e ≤ exponentFrom n fuel e := by
  intro fuel
  induction fuel with
  | zero => intro e; exact le_refl _
  | succ fuel ih =>
    intro e
    unfold exponentFrom
    split
    · exact le_refl _
    · exact le_trans (Nat.le_succ e) (ih (e + 1))

theorem exponentFrom_ge (n : Nat) : ∀ fuel e j : Nat, j < exponentFrom n fuel e →
    (∀ i, i < e → 2 ^ 53 ≤ n / 2 ^ i) → 2 ^ 53 ≤ n / 2 ^ j := by
  intro fuel
  induction fuel with
  | zero => intro e j hj h; exact h j hj
  | succ fuel ih =>
    intro e j hj h
    unfold exponentFrom at hj
    split at hj
    · exact h j hj
    · rename_i hcond
      apply ih (e + 1) j hj
      intro i hi
      rcases Nat.lt_succ_iff_lt_or_eq.1 hi with hi | rfl
      · exact h i hi
      · exact not_lt.1 hcond

theorem exponentFrom_lt (n : Nat) : ∀ fuel e : Nat, n / 2 ^ (e + fuel) < 2 ^ 53 →
    n / 2 ^ exponentFrom n fuel e < 2 ^ 53 := by
  intro fuel
  induction fuel with
  | zero => intro e h; exact h
  | succ fuel ih =>
    intro e h
    unfold exponentFrom
    split
    · assumption
    · apply ih (e + 1)
      rw [show e + 1 + fuel = e + (fuel + 1) by omega]
      exact h

/-- The exponent of a number above `2 ^ 53`: it is positive, it leaves less
than 53 bits, and one less leaves 53 bits at least. -/
theorem exponent_spec (n : Nat) (h : 2 ^ 53 < n) :
    0 < exponentFrom n n 0 ∧ n / 2 ^ exponentFrom n n 0 < 2 ^ 53 ∧
    (∀ j, j < exponentFrom n n 0 → 2 ^ 53 ≤ n / 2 ^ j) ∧
    2 ^ 52 ≤ n / 2 ^ exponentFrom n n 0 := by
  have hpos : 0 < exponentFrom n n 0 := by
    cases n with
    | zero => simp at h
    | succ k =>
      unfold exponentFrom
      rw [if_neg (by simp only [pow_zero, Nat.div_one]; omega)]
      exact Nat.lt_of_lt_of_le (by omega) (exponentFrom_le (k + 1) k 1)
  have hlt : n / 2 ^ exponentFrom n n 0 < 2 ^ 53 := by
    apply exponentFrom_lt
    rw [Nat.zero_add, Nat.div_eq_of_lt (Nat.lt_two_pow n)]
    norm_num
  have hall : ∀ j, j < exponentFrom n n 0 → 2 ^ 53 ≤ n / 2 ^ j := fun j hj =>
    exponentFrom_ge n n 0 j hj (fun i hi => absurd hi (Nat.not_lt_zero i))
  refine ⟨hpos, hlt, hall, ?_⟩
  obtain ⟨E, hE⟩ : ∃ E, exponentFrom n n 0 = E + 1 := ⟨exponentFrom n n 0 - 1, by omega⟩
  have hge : 2 ^ 53 ≤ n / 2 ^ E := hall E (by omega)
  rw [hE, show 2 ^ (E + 1) = 2 ^ E * 2 from pow_succ 2 E, ← Nat.div_div_eq_div_mul]
  omega

theorem roundToEven_bounds (n e : Nat) :
    n / 2 ^ e ≤ roundToEven n e ∧ roundToEven n e ≤ n / 2 ^ e + 1 := by
  unfold roundToEven
  simp only []
  split <;> omega

theorem roundToEven_mono (n n' e : Nat) (h : n ≤ n') :
    roundToEven n e ≤ roundToEven n' e := by
  have hq : n / 2 ^ e ≤ n' / 2 ^ e := Nat.div_le_div_right h
  rcases Nat.lt_or_ge (n / 2 ^ e) (n' / 2 ^ e) with hlt | hge
  · exact le_trans (roundToEven_bounds n e).2 (le_trans hlt (roundToEven_bounds n' e).1)
  · have heq : n / 2 ^ e = n' / 2 ^ e := le_antisymm hq hge
    have h1 := Nat.div_add_mod n (2 ^ e)
    have h2 := Nat.div_add_mod n' (2 ^ e)
    rw [heq] at h1
    have hr : n % 2 ^ e ≤ n' % 2 ^ e := by omega
    unfold roundToEven
    simp only [heq]
    split_ifs <;> omega

theorem toDouble_eq (n : Nat) (h : 2 ^ 53 < n) :
    toDouble n =
      if 971 < exponentFrom n n 0 ∨
          (exponentFrom n n 0 = 971 ∧ roundToEven n (exponentFrom n n 0) = 2 ^ 53) then
        JSNumber.infinity
      else JSNumber.finite (roundToEven n (exponentFrom n n 0) * 2 ^ exponentFrom n n 0) := by
  unfold toDouble
  rw [if_neg (by omega)]

/-- A number above `2 ^ 53` converts to `Infinity` or to a double of at
least `2 ^ 53`. -/
theorem toDouble_large (n : Nat) (h : 2 ^ 53 < n) :
    toDouble n = JSNumber.infinity ∨ ∃ v, toDouble n = JSNumber.finite v ∧ 2 ^ 53 ≤ v := by
  obtain ⟨hpos, -, -, hq⟩ := exponent_spec n h
  have hpow : 2 ≤ 2 ^ exponentFrom n n 0 := by
    have : 2 ^ 1 ≤ 2 ^ exponentFrom n n 0 := Nat.pow_le_pow_right (by omega) hpos
    simpa using this
  rw [toDouble_eq n h]
  split
  · exact Or.inl rfl
  · refine Or.inr ⟨_, rfl, ?_⟩
    calc 2 ^ 53 = 2 ^ 52 * 2 := by norm_num
      _ ≤ _ := Nat.mul_le_mul (le_trans hq (roundToEven_bounds n _).1) hpow

theorem le_toDouble_large (n m : Nat) (h : 2 ^ 53 < n) (hm : m < 2 ^ 53) :
    JSNumber.le (toDouble n) (JSNumber.finite m) = false := by
  rcases toDouble_large n h with hi | ⟨v, hv, hge⟩
  · rw [hi]; rfl
  · rw [hv]
    simp only [JSNumber.le, decide_eq_false_iff_not]
    omega

theorem le_infinity (x : JSNumber) : JSNumber.le x JSNumber.infinity = true := by
  cases x <;> rfl

/-- The conversion to a Number keeps the order. -/
theorem toDouble_mono (n n' : Nat) (h : n ≤ n') :
    JSNumber.le (toDouble n) (toDouble n') = true := by
  by_cases hn' : n' ≤ 2 ^ 53
  · rw [toDouble_of_le n (le_trans h hn'), toDouble_of_le n' hn']
    simpa [JSNumber.le] using h
  · have hn'2 : 2 ^ 53 < n' := by omega
    by_cases hn : n ≤ 2 ^ 53
    · rw [toDouble_of_le n hn]
      rcases toDouble_large n' hn'2 with hi | ⟨v, hv, hge⟩
      · rw [hi]; rfl
      · rw [hv]
        simp only [JSNumber.le, decide_eq_true_eq]
        omega
    · have hn2 : 2 ^ 53 < n := by omega
      obtain ⟨-, -, hall, -⟩ := exponent_spec n hn2
      obtain ⟨hpos', hlt', hall', hq'⟩ := exponent_spec n' hn'2
      have hee : exponentFrom n n 0 ≤ exponentFrom n' n' 0 := by
        by_contra hcon
        have h1 := hall (exponentFrom n' n' 0) (by omega)
        have h2 : n / 2 ^ exponentFrom n' n' 0 ≤ n' / 2 ^ exponentFrom n' n' 0 :=
          Nat.div_le_div_right h
        omega
      rw [toDouble_eq n hn2, toDouble_eq n' hn'2]
      by_cases hinf' : 971 < exponentFrom n' n' 0 ∨
          (exponentFrom n' n' 0 = 971 ∧ roundToEven n' (exponentFrom n' n' 0) = 2 ^ 53)
      · rw [if_pos hinf']
        exact le_infinity _
      · rw [if_neg hinf']
        have hm'le := (roundToEven_bounds n' (exponentFrom n' n' 0)).2
        have hmle := (roundToEven_bounds n (exponentFrom n n 0)).2
        have hqlt := (exponent_spec n hn2).2.1
        rcases Nat.lt_or_ge (exponentFrom n n 0) (exponentFrom n' n' 0) with hlt | hge
        · rw [if_neg (by omega)]
          simp only [JSNumber.le, decide_eq_true_eq]
          obtain ⟨d, hd⟩ : ∃ d, exponentFrom n' n' 0 = exponentFrom n n 0 + 1 + d :=
            ⟨exponentFrom n' n' 0 - (exponentFrom n n 0 + 1), by omega⟩
          have hm'ge := (roundToEven_bounds n' (exponentFrom n' n' 0)).1
          calc roundToEven n (exponentFrom n n 0) * 2 ^ exponentFrom n n 0
              ≤ 2 ^ 53 * 2 ^ exponentFrom n n 0 := Nat.mul_le_mul_right _ (by omega)
            _ = 2 ^ 52 * 2 ^ (exponentFrom n n 0 + 1) := by rw [pow_succ]; ring
            _ ≤ 2 ^ 52 * 2 ^ exponentFrom n' n' 0 :=
                Nat.mul_le_mul_left _ (Nat.pow_le_pow_right (by omega) (by omega))
            _ ≤ roundToEven n' (exponentFrom n' n' 0) * 2 ^ exponentFrom n' n' 0 :=
                Nat.mul_le_mul_right _ (by omega)
        · have heq : exponentFrom n n 0 = exponentFrom n' n' 0 := le_antisymm hee hge
          have hmm := roundToEven_mono n n' (exponentFrom n' n' 0) h
          rw [heq] at hmle ⊢
          rw [if_neg (by omega)]
          simp only [JSNumber.le, decide_eq_true_eq]
          exact Nat.mul_le_mul_right _ hmm

theorem loopFuel_pos (x y : JSNumber) : 0 < loopFuel x y := by
  unfold loopFuel
  split <;> omega

theorem pushLoop_exit (before after : JSString) (width every : Nat) (numB i : JSNumber)
    (fuel : Nat) (out : List JSString) (hfuel : 0 < fuel) (h : JSNumber.le i numB = false) :
    pushLoop before after width every numB fuel i out = some out := by
  cases fuel with
  | zero => omega
  | succ fuel =>
    unfold pushLoop
    rw [h]
    rfl

/-- The loop never ends once the counter stops changing: when `i + every`
is `i` again and `i <= numB`, no amount of fuel gives a result. -/
theorem pushLoop_stall (before after : JSString) (width every : Nat) (numB i : JSNumber)
    (hstall : JSNumber.add i every = i) (hle : JSNumber.le i numB = true) :
    ∀ (fuel : Nat) (out : List JSString),
      pushLoop before after width every numB fuel i out = none := by
  intro fuel
  induction fuel with
  | zero => intro out; rfl
  | succ fuel ih =>
    intro out
    unfold pushLoop
    rw [hle, if_pos rfl, hstall]
    exact ih _

/-- The loop from `i` to `numB < 2 ^ 53`: every value of the counter up to
`numB` is exact, and the first sum above `numB` converts to a Number above
`numB`, so the loop ends and gives the expected names. -/
theorem pushLoop_eq (before after : JSString) (width every numB : Nat) (hev : 0 < every)
    (hbound : numB < 2 ^ 53) :
    ∀ (fuel i : Nat) (out : List JSString), numB + 1 - i < fuel →
      pushLoop before after width every (JSNumber.finite numB) fuel (JSNumber.finite i) out =
        some (out ++ expectedNames before after width i numB every) := by
  intro fuel
  induction fuel with
  | zero => intro i out h; omega
  | succ fuel ih =>
    intro i out h
    unfold pushLoop
    by_cases hi : i ≤ numB
    · have hle : JSNumber.le (JSNumber.finite i) (JSNumber.finite numB) = true := by
        simp [JSNumber.le, hi]
      have hnext : ∀ out₁ : List JSString,
          pushLoop before after width every (JSNumber.finite numB) fuel
            (JSNumber.add (JSNumber.finite i) every) out₁ =
            some (out₁ ++ expectedNames before after width (i + every) numB every) := by
        intro out₁
        by_cases hsum : i + every ≤ 2 ^ 53
        · have hadd : JSNumber.add (JSNumber.finite i) every = JSNumber.finite (i + every) :=
            toDouble_of_le _ hsum
          rw [hadd]
          exact ih (i + every) out₁ (by omega)
        · have hexit : JSNumber.le (JSNumber.add (JSNumber.finite i) every)
              (JSNumber.finite numB) = false :=
            le_toDouble_large (i + every) numB (by omega) hbound
          rw [pushLoop_exit _ _ _ _ _ _ _ _ (by omega) hexit]
          unfold expectedNames rangeCount
          rw [if_neg (by omega)]
          simp
      rw [hle, if_pos rfl, numberToString_of_le i (by omega), hnext]
      unfold expectedNames
      rw [rangeCount_succ i numB every hev hi, List.range'_succ]
      simp
    · have hle : JSNumber.le (JSNumber.finite i) (JSNumber.finite numB) = false := by
        simp [JSNumber.le, hi]
      rw [hle]
      unfold expectedNames rangeCount
      rw [if_neg hi]
      simp

/-- The loop of `obURLsToArray` for digit runs `a` and `b` with
`numB < 2 ^ 53`: it returns the expected names. -/
theorem pushLoop_parseInt (P S a b : JSString) (every : Nat) (hev : 0 < every)
    (hbound : mathInt b < 2 ^ 53) :
    pushLoop P S a.length every (parseInt b) (loopFuel (parseInt a) (parseInt b))
        (parseInt a) [] =
      some (expectedNames P S a.length (mathInt a) (mathInt b) every) := by
  have hb : parseInt b = JSNumber.finite (mathInt b) := parseInt_of_le b (by omega)
  rw [hb]
  by_cases ha : mathInt a ≤ 2 ^ 53
  · rw [parseInt_of_le a ha]
    have := pushLoop_eq P S a.length every (mathInt b) hev hbound
      (loopFuel (JSNumber.finite (mathInt a)) (JSNumber.finite (mathInt b))) (mathInt a) []
      (by show mathInt b + 1 - mathInt a < mathInt b + 1 - mathInt a + 1; omega)
    rw [this, List.nil_append]
  · have hle : JSNumber.le (parseInt a) (JSNumber.finite (mathInt b)) = false :=
      le_toDouble_large (mathInt a) (mathInt b) (by omega) (by omega)
    rw [pushLoop_exit _ _ _ _ _ _ _ _ (loopFuel_pos _ _) hle]
    unfold expectedNames rangeCount
    rw [if_neg (by omega)]
    rfl

/-- The list a loop returns starts with the names it was given. -/
theorem pushLoop_prefix (before after : JSString) (width every : Nat) (numB : JSNumber) :
    ∀ (fuel : Nat) (i : JSNumber) (out l : List JSString),
      pushLoop before after width every numB fuel i out = some l → ∃ t, l = out ++ t := by
  intro fuel
  induction fuel with
  | zero => intro i out l h; exact absurd h (by simp [pushLoop])
  | succ fuel ih =>
    intro i out l h
    unfold pushLoop at h
    split at h
    · obtain ⟨t, ht⟩ := ih _ _ _ h
      exact ⟨_ :: t, by rw [ht, List.append_assoc]; rfl⟩
    · exact ⟨[], by rw [List.append_nil]; exact (Option.some.inj h).symm⟩

/-- A loop that starts with `numA ≤ numB` for the digit runs' values does not
return the empty list. -/
theorem pushLoop_ne_nil (P S a b : JSString) (width every fuel : Nat)
    (hle : mathInt a ≤ mathInt b) :
    pushLoop P S width every (parseInt b) fuel (parseInt a) [] ≠ some [] := by
  intro h
  cases fuel with
  | zero => exact absurd h (by simp [pushLoop])
  | succ fuel =>
    unfold pushLoop at h
    have hmono : JSNumber.le (parseInt a) (parseInt b) = true :=
      toDouble_mono (mathInt a) (mathInt b) hle
    rw [hmono, if_pos rfl] at h
    obtain ⟨t, ht⟩ := pushLoop_prefix _ _ _ _ _ _ _ _ _ h
    simp at ht

theorem exponent_unique (n e : Nat) (h : 2 ^ 53 < n) (he : 0 < e)
    (h1 : n / 2 ^ e < 2 ^ 53) (h2 : 2 ^ 53 ≤ n / 2 ^ (e - 1)) : exponentFrom n n 0 = e := by
  obtain ⟨-, hlt, hall, -⟩ := exponent_spec n h
  apply le_antisymm
  · by_contra hc
    have := hall e (by omega)
    omega
  · by_contra hc
    have hpow : 2 ^ exponentFrom n n 0 ≤ 2 ^ (e - 1) :=
      Nat.pow_le_pow_right (by omega) (by omega)
    have := Nat.div_le_div (le_refl n) hpow (by positivity)
    omega

/-- A significand of 53 bits at an exponent up to 971 is a double: the
conversion leaves it unchanged. -/
theorem toDouble_of_form (m e : Nat) (hm1 : 2 ^ 52 ≤ m) (hm2 : m < 2 ^ 53) (he : 0 < e)
    (hov : e ≤ 971) : toDouble (m * 2 ^ e) = JSNumber.finite (m * 2 ^ e) := by
  by_cases hv : m * 2 ^ e ≤ 2 ^ 53
  · exact toDouble_of_le _ hv
  · have hpos : 0 < 2 ^ e := by positivity
    have hq : m * 2 ^ e / 2 ^ e = m := Nat.mul_div_cancel m hpos
    have hr : m * 2 ^ e % 2 ^ e = 0 := Nat.mul_mod_left _ _
    obtain ⟨d, rfl⟩ : ∃ d, e = d + 1 := ⟨e - 1, by omega⟩
    have hq2 : m * 2 ^ (d + 1) / 2 ^ d = m * 2 := by
      rw [pow_succ, ← Nat.mul_assoc, Nat.mul_right_comm]
      exact Nat.mul_div_cancel _ (by positivity)
    have hexp : exponentFrom (m * 2 ^ (d + 1)) (m * 2 ^ (d + 1)) 0 = d + 1 :=
      exponent_unique _ _ (by omega) (by omega) (by rw [hq]; exact hm2)
        (by rw [Nat.add_sub_cancel, hq2]; omega)
    have hhalf : 0 < 2 ^ d := by positivity
    have hround : roundToEven (m * 2 ^ (d + 1)) (d + 1) = m := by
      unfold roundToEven
      simp only [hq, hr, Nat.add_sub_cancel]
      rw [if_neg (by omega)]
    rw [toDouble_eq _ (by omega), hexp, hround, if_neg (by omega)]

/-- The conversion to a Number is idempotent: a value it gives is a double. -/
theorem toDouble_idem (n v : Nat) (h : toDouble n = JSNumber.finite v) :
    toDouble v = JSNumber.finite v := by
  by_cases hn : n ≤ 2 ^ 53
  · rw [toDouble_of_le n hn] at h
    cases h
    exact toDouble_of_le n hn
  · have hn2 : 2 ^ 53 < n := by omega
    obtain ⟨hpos, hlt, -, hq⟩ := exponent_spec n hn2
    have hb := roundToEven_bounds n (exponentFrom n n 0)
    rw [toDouble_eq n hn2] at h
    split at h
    · cases h
    · rename_i hov
      cases h
      by_cases hm : roundToEven n (exponentFrom n n 0) = 2 ^ 53
      · rw [hm, show (2 : Nat) ^ 53 * 2 ^ exponentFrom n n 0
            = 2 ^ 52 * 2 ^ (exponentFrom n n 0 + 1) by rw [pow_succ]; ring]
        exact toDouble_of_form _ _ (le_refl _) (by norm_num) (by omega) (by omega)
      · exact toDouble_of_form _ _ (by omega) (by omega) hpos (by omega)

theorem pushLoop_fuel_mono (before after : JSString) (width every : Nat) (numB : JSNumber) :
    ∀ (fuel fuel' : Nat) (i : JSNumber) (out l : List JSString), fuel ≤ fuel' →
      pushLoop before after width every numB fuel i out = some l →
      pushLoop before after width every numB fuel' i out = some l := by
  intro fuel
  induction fuel with
  | zero => intro fuel' i out l _ h; exact absurd h (by simp [pushLoop])
  | succ fuel ih =>
    intro fuel' i out l hle h
    obtain ⟨k, rfl⟩ : ∃ k, fuel' = k + 1 := ⟨fuel' - 1, by omega⟩
    unfold pushLoop at h ⊢
    split
    · rename_i hc
      rw [if_pos hc] at h
      exact ih k _ _ _ (by omega) h
    · rename_i hc
      rw [if_neg hc] at h
      exact h

theorem pushLoop_infinity (before after : JSString) (width every : Nat) :
    ∀ (fuel : Nat) (i : JSNumber) (out : List JSString),
      pushLoop before after width every JSNumber.infinity fuel i out = none := by
  intro fuel
  induction fuel with
  | zero => intro i out; rfl
  | succ fuel ih =>
    intro i out
    unfold pushLoop
    rw [le_infinity, if_pos rfl]
    exact ih _ _

theorem pushLoop_loopFuel_finite (before after : JSString) (width every b : Nat) :
    ∀ (fuel x : Nat) (out l : List JSString),
      pushLoop before after width every (JSNumber.finite b) fuel (toDouble x) out = some l →
      pushLoop before after width every (JSNumber.finite b)
        (loopFuel (toDouble x) (JSNumber.finite b)) (toDouble x) out = some l := by
  intro fuel
  induction fuel with
  | zero => intro x out l h; exact absurd h (by simp [pushLoop])
  | succ fuel ih =>
    intro x out l h
    by_cases hle : JSNumber.le (toDouble x) (JSNumber.finite b) = true
    · cases hx : toDouble x with
      | infinity => rw [hx] at hle; exact absurd hle (by simp [JSNumber.le])
      | finite v =>
        rw [hx] at h hle
        have hvb : v ≤ b := by simpa [JSNumber.le] using hle
        have hidem := toDouble_idem x v hx
        have hnext : JSNumber.add (JSNumber.finite v) every = toDouble (v + every) := rfl
        have hne : toDouble (v + every) ≠ JSNumber.finite v := by
          intro heq
          have := pushLoop_stall before after width every (JSNumber.finite b)
            (JSNumber.finite v) (by rw [hnext, heq]) hle (fuel + 1) out
          rw [this] at h
          exact absurd h (by simp)
        have hmono := toDouble_mono v (v + every) (Nat.le_add_right _ _)
        rw [hidem] at hmono
        unfold pushLoop at h
        rw [hle, if_pos rfl, hnext] at h
        have hih := ih (v + every) _ l h
        show pushLoop before after width every (JSNumber.finite b) (b + 1 - v + 1)
          (JSNumber.finite v) out = some l
        unfold pushLoop
        rw [hle, if_pos rfl, hnext]
        refine pushLoop_fuel_mono _ _ _ _ _ _ _ _ _ _ ?_ hih
        cases hv' : toDouble (v + every) with
        | infinity => show 1 ≤ b + 1 - v; omega
        | finite v' =>
          rw [hv'] at hmono hne
          have h1 : v ≤ v' := by simpa [JSNumber.le] using hmono
          have h2 : v' ≠ v := fun e => hne (by rw [e])
          show b + 1 - v' + 1 ≤ b + 1 - v
          omega
    · have hle' : JSNumber.le (toDouble x) (JSNumber.finite b) = false := by
        simpa using hle
      rw [pushLoop_exit _ _ _ _ _ _ _ _ (Nat.succ_pos _) hle'] at h
      rw [pushLoop_exit _ _ _ _ _ _ _ _ (loopFuel_pos _ _) hle']
      exact h

/-- The evaluations `obURLsToArray` gives its loop are enough: when the loop
from `parseInt a` to `parseInt b` ends within some number of evaluations of
its condition, it ends within `loopFuel numA numB` of them, with the same
list. So `obURLsToArray` is `none` only for a loop that never ends. -/
theorem pushLoop_loopFuel (before after a b : JSString) (width every fuel : Nat)
    (l : List JSString)
    (h : pushLoop before after width every (parseInt b) fuel (parseInt a) [] = some l) :
    pushLoop before after width every (parseInt b) (loopFuel (parseInt a) (parseInt b))
      (parseInt a) [] = some l := by
  cases hb : parseInt b with
  | infinity =>
    rw [hb, pushLoop_infinity] at h
    exact absurd h (by simp)
  | finite v =>
    rw [hb] at h
    exact pushLoop_loopFuel_finite before after width every v fuel (mathInt a) [] l h

theorem mem_range'_rangeCount (numA numB every : Nat) (hev : 0 < every) (i : Nat) :
    i ∈ List.range' numA (rangeCount numA numB every) every ↔
      ∃ k, i = numA + every * k ∧ i ≤ numB := by
  rw [List.mem_range']
  unfold rangeCount
  constructor
  · rintro ⟨k, hk, rfl⟩
    refine ⟨k, rfl, ?_⟩
    by_cases h : numA ≤ numB
    · rw [if_pos h] at hk
      have h1 : k ≤ (numB - numA) / every := by omega
      have h2 := (Nat.le_div_iff_mul_le hev).1 h1
      rw [Nat.mul_comm] at h2
      omega
    · rw [if_neg h] at hk
      omega
  · rintro ⟨k, rfl, hk⟩
    refine ⟨k, ?_, rfl⟩
    have h : numA ≤ numB := by
      have := Nat.le_add_right numA (every * k)
      omega
    rw [if_pos h]
    have h2 : k * every ≤ numB - numA := by
      rw [Nat.mul_comm]
      omega
    have h1 := (Nat.le_div_iff_mul_le hev).2 h2
    omega

theorem falsy_append (P a S : JSString) (ha : a ≠ []) : falsy (some (P ++ a ++ S)) = false := by
  cases h : P ++ a ++ S with
  | nil =>
    have h2 := List.append_eq_nil.1 h
    exact absurd (List.append_eq_nil.1 h2.1).2 ha
  | cons c s => rfl

/-- What `obURLsToArray` does with two names that share a template: the
padding test, and then the loop. -/
theorem obURLsToArray_template (P S a b : JSString) (every : Nat)
    (ha : IsLastDigitRun P a S) (hb : IsLastDigitRun P b S) (hP : NoLineTerminator P) :
    obURLsToArray ⟨some (P ++ a ++ S), some (P ++ b ++ S)⟩ every =
      if ((charAt0EqZero a || charAt0EqZero b) && a.length != b.length) = true then some []
      else pushLoop P S a.length every (parseInt b) (loopFuel (parseInt a) (parseInt b))
        (parseInt a) [] := by
  unfold obURLsToArray
  simp only [falsy_append P a S ha.1, falsy_append P b S hb.1, Bool.or_self, Bool.false_eq_true,
    if_false, lastNumber_eq P a S ha hP, lastNumber_eq P b S hb hP, if_neg ha.1, if_neg hb.1,
    basenameBefore_eq P a S ha hP, basenameBefore_eq P b S hb hP, basenameAfter_eq P a S ha,
    basenameAfter_eq P b S hb, ne_eq, not_true_eq_false, or_self]

theorem charAt0EqZero_iff (a : JSString) : charAt0EqZero a = true ↔ a.head? = some '0' := by
  simp [charAt0EqZero]

theorem padding_test_iff (a b : JSString) :
    ((charAt0EqZero a || charAt0EqZero b) && a.length != b.length) = true ↔
      ((a.head? = some '0' ∨ b.head? = some '0') ∧ a.length ≠ b.length) := by
  simp [charAt0EqZero]

theorem expectedNames_ne_nil (P S : JSString) (width numA numB every : Nat)
    (h : numA ≤ numB) : expectedNames P S width numA numB every ≠ [] := by
  unfold expectedNames rangeCount
  rw [if_pos h, List.range'_succ]
  simp

/-- C1, counterexample: in `img9007199254740993.png` the digit run has the
value `2 ^ 53 + 1`, which `parseInt` rounds to `2 ^ 53`. With this name as
first and last name and the step 2, the list the claim describes is the one
name `img9007199254740993.png`, and `obURLsToArray` returns the one name
`img9007199254740992.png`. With the step 1 the sum `i + 1` rounds back to
`i`, and the loop gives no result, whatever the number of evaluations. -/
theorem obURLsToArray_rounding_counterexample :
    IsLastDigitRun "img".toList "9007199254740993".toList ".png".toList ∧
    NoLineTerminator ("img".toList ++ "9007199254740993".toList ++ ".png".toList) ∧
    expectedNames "img".toList ".png".toList "9007199254740993".toList.length
      (mathInt "9007199254740993".toList) (mathInt "9007199254740993".toList) 2
      = ["img9007199254740993.png".toList] ∧
    obURLsToArray ⟨some "img9007199254740993.png".toList,
      some "img9007199254740993.png".toList⟩ 2 = some ["img9007199254740992.png".toList] ∧
    obURLsToArray ⟨some "img9007199254740993.png".toList,
      some "img9007199254740993.png".toList⟩ 1 = none ∧
    ∀ (fuel : Nat) (out : List JSString),
      pushLoop "img".toList ".png".toList 16 1 (parseInt "9007199254740993".toList) fuel
        (parseInt "9007199254740993".toList) out = none := by
  refine ⟨by decide, by decide, by decide, by decide, by decide, ?_⟩
  exact pushLoop_stall _ _ _ _ _ _ (by decide) (by decide)

/-- C1, amended: for two names `P + a + S` and `P + b + S` that share a
template, with `a` and `b` their rightmost maximal digit runs, no line
terminator in the prefix, `a` and `b` of the same length or neither starting
with `0`, `numB < 2 ^ 53` and a step of at least 1, `obURLsToArray` returns
exactly the names `P + zero_pad(i, len a) + S` for
`i = numA, numA + step, ...` while `i ≤ numB`, in this order; the list is
empty when `numA > numB`. -/
theorem obURLsToArray_expands (P S a b : JSString) (every : Nat)
    (ha : IsLastDigitRun P a S) (hb : IsLastDigitRun P b S) (hP : NoLineTerminator P)
    (hpad : a.length = b.length ∨ (a.head? ≠ some '0' ∧ b.head? ≠ some '0'))
    (hstep : 1 ≤ every) (hbound : mathInt b < 2 ^ 53) :
    obURLsToArray ⟨some (P ++ a ++ S), some (P ++ b ++ S)⟩ every
      = some ((List.range' (mathInt a) (rangeCount (mathInt a) (mathInt b) every) every).map
          (fun i => P ++ padStart (decimal i) a.length '0' ++ S)) ∧
    (∀ i, i ∈ List.range' (mathInt a) (rangeCount (mathInt a) (mathInt b) every) every ↔
      ∃ k, i = mathInt a + every * k ∧ i ≤ mathInt b) ∧
    (mathInt b < mathInt a →
      obURLsToArray ⟨some (P ++ a ++ S), some (P ++ b ++ S)⟩ every = some []) := by
  have hno : ¬ (((charAt0EqZero a || charAt0EqZero b) && a.length != b.length) = true) := by
    rw [padding_test_iff]
    rintro ⟨h0, hlen⟩
    rcases hpad with h | ⟨h1, h2⟩
    · exact hlen h
    · rcases h0 with h0 | h0
      · exact h1 h0
      · exact h2 h0
  have hmain := obURLsToArray_template P S a b every ha hb hP
  rw [if_neg hno, pushLoop_parseInt P S a b every hstep hbound] at hmain
  refine ⟨by simpa [expectedNames] using hmain, mem_range'_rangeCount _ _ _ hstep, ?_⟩
  intro hlt
  rw [hmain]
  unfold expectedNames rangeCount
  rw [if_neg (by omega)]
  rfl

/-- A witness for C1 as amended: `img1.png` to `img5.png` gives the 5 names
`img1.png`, ..., `img5.png`, and `img01.png` to `img10.png` gives the 10
names `img01.png`, ..., `img10.png`. -/
theorem obURLsToArray_expands_witness :
    obURLsToArray ⟨some "img1.png".toList, some "img5.png".toList⟩ 1
      = some ["img1.png".toList, "img2.png".toList, "img3.png".toList, "img4.png".toList,
          "img5.png".toList] ∧
    obURLsToArray ⟨some "img01.png".toList, some "img10.png".toList⟩ 1
      = some ["img01.png".toList, "img02.png".toList, "img03.png".toList, "img04.png".toList,
          "img05.png".toList, "img06.png".toList, "img07.png".toList, "img08.png".toList,
          "img09.png".toList, "img10.png".toList] :=
  ⟨(obURLsToArray_expands "img".toList ".png".toList "1".toList "5".toList 1
      (by decide) (by decide) (by decide) (by decide) (by decide) (by decide)).1,
    (obURLsToArray_expands "img".toList ".png".toList "01".toList "10".toList 1
      (by decide) (by decide) (by decide) (by decide) (by decide) (by decide)).1⟩

/-- C9, counterexample. In `img01.png`, `img1.png` only the first digit run
starts with `0`, `numA ≤ numB`, and the pair is rejected, not expanded. In
the names `1`, line feed, `x01` and `1`, line feed, `x001`, both digit runs
start with `0` and differ in length, and the pair is not rejected: the
result is the one name `1`. In `img9007199254740992.png` as first and last
name no digit run starts with `0`, `numA ≤ numB`, and the pair is not
expanded to a non-empty list: at `2 ^ 53` the sum `i + 1` rounds back to
`i`, and the loop gives no result, whatever the number of evaluations. -/
theorem padding_rejection_counterexample :
    (IsLastDigitRun "img".toList "01".toList ".png".toList ∧
      IsLastDigitRun "img".toList "1".toList ".png".toList ∧
      mathInt "01".toList ≤ mathInt "1".toList ∧
      ¬ ("01".toList.head? = some '0' ∧ "1".toList.head? = some '0') ∧
      obURLsToArray ⟨some ("img".toList ++ "01".toList ++ ".png".toList),
        some ("img".toList ++ "1".toList ++ ".png".toList)⟩ 1 = some []) ∧
    (IsLastDigitRun "1\nx".toList "01".toList [] ∧
      IsLastDigitRun "1\nx".toList "001".toList [] ∧
      mathInt "01".toList ≤ mathInt "001".toList ∧
      ("01".toList.head? = some '0' ∧ "001".toList.head? = some '0') ∧
      "01".toList.length ≠ "001".toList.length ∧
      obURLsToArray ⟨some ("1\nx".toList ++ "01".toList ++ []),
        some ("1\nx".toList ++ "001".toList ++ [])⟩ 1 = some ["1".toList]) ∧
    (IsLastDigitRun "img".toList "9007199254740992".toList ".png".toList ∧
      NoLineTerminator ("img".toList ++ "9007199254740992".toList ++ ".png".toList) ∧
      "9007199254740992".toList.head? ≠ some '0' ∧
      obURLsToArray ⟨some ("img".toList ++ "9007199254740992".toList ++ ".png".toList),
        some ("img".toList ++ "9007199254740992".toList ++ ".png".toList)⟩ 1 = none ∧
      ∀ (fuel : Nat) (out : List JSString),
        pushLoop "img".toList ".png".toList 16 1 (parseInt "9007199254740992".toList) fuel
          (parseInt "9007199254740992".toList) out = none) := by
  refine ⟨by decide, by decide, by decide, by decide, by decide, by decide, ?_⟩
  exact pushLoop_stall _ _ _ _ _ _ (by decide) (by decide)

/-- C9, amended: for two names without line terminator in the prefix that
share a template, with `numA ≤ numB`, `obURLsToArray` returns the empty list
if and only if at least one of the digit runs starts with `0` and the two
runs differ in length; in every other case with `numB < 2 ^ 53` the result
is a non-empty list. -/
theorem padding_rejection_iff (P S a b : JSString)
    (ha : IsLastDigitRun P a S) (hb : IsLastDigitRun P b S) (hP : NoLineTerminator P)
    (hle : mathInt a ≤ mathInt b) :
    (obURLsToArray ⟨some (P ++ a ++ S), some (P ++ b ++ S)⟩ 1 = some [] ↔
      ((a.head? = some '0' ∨ b.head? = some '0') ∧ a.length ≠ b.length)) ∧
    (¬ ((a.head? = some '0' ∨ b.head? = some '0') ∧ a.length ≠ b.length) →
      mathInt b < 2 ^ 53 →
      ∃ l, obURLsToArray ⟨some (P ++ a ++ S), some (P ++ b ++ S)⟩ 1 = some l ∧ l ≠ []) := by
  have hmain := obURLsToArray_template P S a b 1 ha hb hP
  refine ⟨⟨?_, ?_⟩, ?_⟩
  · intro hnil
    by_contra hno
    rw [hmain, if_neg (by rw [padding_test_iff]; exact hno)] at hnil
    exact pushLoop_ne_nil P S a b _ _ _ hle hnil
  · intro hyes
    rw [hmain, if_pos (by rw [padding_test_iff]; exact hyes)]
  · intro hno hbound
    refine ⟨_, ?_, expectedNames_ne_nil P S a.length (mathInt a) (mathInt b) 1 hle⟩
    rw [hmain, if_neg (by rw [padding_test_iff]; exact hno),
      pushLoop_parseInt P S a b 1 (by omega) hbound]

/-- A witness for C9 as amended: `img01.png`, `img1.png` is rejected, and
`img1.png`, `img3.png` is expanded to a non-empty list. -/
theorem padding_rejection_iff_witness :
    obURLsToArray ⟨some "img01.png".toList, some "img1.png".toList⟩ 1 = some [] ∧
    ∃ l, obURLsToArray ⟨some "img1.png".toList, some "img3.png".toList⟩ 1 = some l ∧ l ≠ [] :=
  ⟨(padding_rejection_iff "img".toList ".png".toList "01".toList "1".toList
      (by decide) (by decide) (by decide) (by decide)).1.2 (by decide),
    (padding_rejection_iff "img".toList ".png".toList "1".toList "3".toList
      (by decide) (by decide) (by decide) (by decide)).2 (by decide) (by decide)⟩

/-- C10, counterexample: the names `1`, line feed, `x01` and `1`, line feed,
`x1` have the rightmost digit runs `01` and `1`, of different lengths and the
first starting with `0`, and `obURLsToArray` returns the one name `1`, not
the empty list. -/
theorem length_mismatch_counterexample :
    IsLastDigitRun "1\nx".toList "01".toList [] ∧
    IsLastDigitRun "1\nx".toList "1".toList [] ∧
    "01".toList.length ≠ "1".toList.length ∧
    "01".toList.head? = some '0' ∧
    obURLsToArray ⟨some ("1\nx".toList ++ "01".toList ++ []),
      some ("1\nx".toList ++ "1".toList ++ [])⟩ 1 = some ["1".toList] := by
  decide

/-- C10, amended: for two names without line terminator in the prefix that
share a template, if the digit runs differ in length and at least one of them
starts with `0`, `obURLsToArray` returns the empty list, whatever the step. -/
theorem length_mismatch_rejected (P S a b : JSString) (every : Nat)
    (ha : IsLastDigitRun P a S) (hb : IsLastDigitRun P b S) (hP : NoLineTerminator P)
    (hlen : a.length ≠ b.length) (hzero : a.head? = some '0' ∨ b.head? = some '0') :
    obURLsToArray ⟨some (P ++ a ++ S), some (P ++ b ++ S)⟩ every = some [] := by
  rw [obURLsToArray_template P S a b every ha hb hP,
    if_pos (by rw [padding_test_iff]; exact ⟨hzero, hlen⟩)]

/-- A witness for C10 as amended: `img01.png`, `img1.png` gives the empty
list. -/
theorem length_mismatch_rejected_witness :
    obURLsToArray ⟨some "img01.png".toList, some "img1.png".toList⟩ 1 = some [] :=
  length_mismatch_rejected "img".toList ".png".toList "01".toList "1".toList 1
    (by decide) (by decide) (by decide) (by decide) (by decide)

theorem runActions_pause_fire_stopped (q : Player) (hplay : q.isPlaying = false)
    (htimers : q.timers = []) (as : List Action)
    (has : ∀ a ∈ as, a = Action.pause 0 ∨ ∃ i, a = Action.fire i) : runActions q as = q := by
  induction as with
  | nil => rfl
  | cons a as ih =>
    have hstep : (a.run q).state = q := by
      rcases has a (List.mem_cons_self _ _) with rfl | ⟨i, rfl⟩
      · simp [Action.run, pause, pauseNow, hplay]
      · simp [Action.run, fire, htimers]
    rw [runActions, hstep]
    exact ih (fun b hb => has b (List.mem_cons_of_mem _ hb))

theorem playFrame_nonloop_last (p : Player) (hloop : p.options.loop = false)
    (hlast : p.currentFrameIndex + 1 = p.imageCount) (hplaying : p.isPlaying = true) :
    playFrame p =
      { state := { p with
          currentFrameIndex := p.imageCount
          isPlaying := false
          timers := (clearTimeout p p.animationFrameId).timers
          log := p.log ++ frameEvents p.options p.currentFrameIndex }
        threw := false } := by
  have hlt : p.currentFrameIndex < p.imageCount := by omega
  have hge : p.imageCount ≤ p.currentFrameIndex + 1 := by omega
  cases hid : p.animationFrameId <;>
    simp [playFrame, renderFrame, hlt, hge, hloop, pause, pauseNow, hplaying, clearTimeout, hid,
      frameEvents, hlast]

theorem stopped_of_playFrame (p0 p : Player) (hloop : p.options.loop = false)
    (hlast : p.currentFrameIndex + 1 = p.imageCount) (hplaying : p.isPlaying = true)
    (htimers : p.timers = []) (hlog : p.log = p0.log) (hcount : p.imageCount = p0.imageCount) :
    StoppedAfterLastFrame p0 (playFrame p) := by
  rw [playFrame_nonloop_last p hloop hlast hplaying]
  have hcl : (clearTimeout p p.animationFrameId).timers = [] := by
    cases hid : p.animationFrameId <;> simp [clearTimeout, htimers]
  refine ⟨rfl, ?_, rfl, hcl, ?_⟩
  · have hidx : p.currentFrameIndex = p0.imageCount - 1 := by omega
    simp [loggedSince, hlog, renderedFrames_frameEvents, hidx]
  · intro as has
    refine runActions_pause_fire_stopped _ ?_ ?_ as has
    · rfl
    · exact hcl

/-- C14: with `loop` off, the execution of `playFrame` that renders the frame
`N - 1`, whether it is a timer tick of a playing player or the one `play()`
starts on a paused player, sets `isPlaying` to false and arms no tick:
afterwards no timer is pending, and until `play()`, `resume()` or
`togglePlay()` is called nothing renders a frame or changes the state. -/
theorem nonloop_last_frame_stops (p : Player) (hloop : p.options.loop = false)
    (hlast : p.currentFrameIndex + 1 = p.imageCount) :
    (∀ id, p.isPlaying = true → p.animationFrameId = some id →
      p.timers = [(id, TimerTask.playFrame)] → StoppedAfterLastFrame p (tick p)) ∧
    (p.isPlaying = false → p.timers = [] → StoppedAfterLastFrame p (play p 0)) := by
  refine ⟨?_, ?_⟩
  · intro id hplaying hid htimers
    have htick : tick p = playFrame { p with timers := [] } := by
      simp [tick, hid, fire, htimers]
    rw [htick]
    exact stopped_of_playFrame p _ hloop hlast hplaying rfl rfl rfl
  · intro hpaused htimers
    have hplay : play p 0 = playFrame { p with isPlaying := true } := by
      simp [play, hpaused]
    rw [hplay]
    exact stopped_of_playFrame p _ hloop hlast rfl htimers rfl rfl

/-- A witness for C14: a player over 2 frames without `loop`, playing, with
its tick pending and the index on the last frame; and a paused player over 1
frame. -/
theorem nonloop_last_frame_stops_witness :
    StoppedAfterLastFrame (play (construct ⟨false, 0, true, true⟩ 2) 0).state
      (tick (play (construct ⟨false, 0, true, true⟩ 2) 0).state) ∧
    StoppedAfterLastFrame (construct ⟨false, 0, true, true⟩ 1)
      (play (construct ⟨false, 0, true, true⟩ 1) 0) :=
  ⟨(nonloop_last_frame_stops (play (construct ⟨false, 0, true, true⟩ 2) 0).state
      (by decide) (by decide)).1 0 (by decide) (by decide) (by decide),
    (nonloop_last_frame_stops (construct ⟨false, 0, true, true⟩ 1)
      (by decide) (by decide)).2 (by decide) (by decide)⟩

/-- C15: `pause()` called twice in a row leaves the state one `pause()`
leaves, and `play()` or `resume()` called while `isPlaying` is true returns
without throwing and leaves the whole state as it was: index, flag, timers
and log, so no frame is rendered and no tick is armed. -/
theorem pause_idempotent_play_noop (p : Player) :
    pause (pause p 0) 0 = pause p 0 ∧
    (p.isPlaying = true →
      play p 0 = { state := p, threw := false } ∧
      resume p 0 = { state := p, threw := false }) := by
  refine ⟨?_, ?_⟩
  · cases hp : p.isPlaying <;> simp [pause, pauseNow, hp]
  · intro hp
    simp [play, resume, hp]

/-- A witness for C15: a player that `play()` has just started. -/
theorem pause_idempotent_play_noop_witness :
    play (play (construct ⟨true, 0, true, true⟩ 3) 0).state 0
      = { state := (play (construct ⟨true, 0, true, true⟩ 3) 0).state, threw := false } ∧
    resume (play (construct ⟨true, 0, true, true⟩ 3) 0).state 0
      = { state := (play (construct ⟨true, 0, true, true⟩ 3) 0).state, threw := false } :=
  (pause_idempotent_play_noop (play (construct ⟨true, 0, true, true⟩ 3) 0).state).2
    (by decide)

/-- C16, at the failing input: one frame, `loop` off, `play()` called twice.
The first call plays the frame and stops with the index at 1; the second sets
`isPlaying` and throws in `renderFrame`, so the player is left with
`isPlaying` true and no timer pending. -/
theorem nonloop_replay_playing_without_timer :
    Action.noDelay (Action.play 0) = true ∧
    (construct ⟨false, 0, false, false⟩ 1).options.firstFrameIndex
      < (construct ⟨false, 0, false, false⟩ 1).imageCount ∧
    (runActions (construct ⟨false, 0, false, false⟩ 1)
      [Action.play 0, Action.play 0]).isPlaying = true ∧
    (runActions (construct ⟨false, 0, false, false⟩ 1)
      [Action.play 0, Action.play 0]).timers = [] := by
  decide

theorem playFrame_tickInv (n : Nat) (p : Player) (h : LoopInRange n p)
    (hplay : p.isPlaying = true) (htimers : p.timers = []) : TickInv (playFrame p).state := by
  rw [playFrame_loop p h.1 (by rw [h.2.1]; exact h.2.2)]
  refine ⟨fun _ => ⟨p.nextTimerId, rfl, ?_⟩, fun hp => ?_⟩
  · simp [htimers]
  · exact absurd hplay (by simpa using hp)

theorem run_tickInv (n : Nat) (p : Player) (a : Action) (ha : a.noDelay = true)
    (h : LoopInRange n p) (hinv : TickInv p) : TickInv (a.run p).state := by
  have hplayNow : TickInv (play p 0).state := by
    cases hp : p.isPlaying with
    | true => simpa [play, hp] using hinv
    | false =>
      have hq : LoopInRange n { p with isPlaying := true } := h
      simpa [play, hp] using playFrame_tickInv n _ hq rfl (hinv.2 hp)
  have hpauseNow : TickInv (pause p 0) := by
    cases hp : p.isPlaying with
    | false => simpa [pause, pauseNow, hp] using hinv
    | true =>
      obtain ⟨id, hid, htm⟩ := hinv.1 hp
      refine ⟨fun hc => ?_, fun _ => ?_⟩
      · simp [pause, pauseNow, hp] at hc
      · simp [pause, pauseNow, hp, clearTimeout, hid, htm]
  cases a with
  | play d =>
    have hd : d = 0 := by simpa [Action.noDelay] using ha
    subst hd
    exact hplayNow
  | pause d =>
    have hd : d = 0 := by simpa [Action.noDelay] using ha
    subst hd
    exact hpauseNow
  | resume d =>
    have hd : d = 0 := by simpa [Action.noDelay] using ha
    subst hd
    show TickInv (resume p 0).state
    cases hp : p.isPlaying with
    | true => simpa [resume, hp] using hinv
    | false =>
      have : resume p 0 = play p 0 := by simp [resume, hp]
      rw [this]
      exact hplayNow
  | togglePlay d =>
    have hd : d = 0 := by simpa [Action.noDelay] using ha
    subst hd
    show TickInv (togglePlay p 0).state
    cases hp : p.isPlaying with
    | true =>
      have : (togglePlay p 0).state = pause p 0 := by simp [togglePlay, hp]
      rw [this]
      exact hpauseNow
    | false =>
      have : togglePlay p 0 = play p 0 := by simp [togglePlay, hp]
      rw [this]
      exact hplayNow
  | fire i =>
    show TickInv (fire p i).state
    cases hp : p.isPlaying with
    | false =>
      have : fire p i = { state := p, threw := false } := by simp [fire, hinv.2 hp]
      rw [this]
      exact hinv
    | true =>
      obtain ⟨id, hid, htm⟩ := hinv.1 hp
      by_cases hi : id = i
      · subst hi
        have hq : LoopInRange n { p with timers := [] } := h
        have : fire p id = playFrame { p with timers := [] } := by simp [fire, htm]
        rw [this]
        exact playFrame_tickInv n _ hq hp rfl
      · have : fire p i = { state := p, threw := false } := by simp [fire, htm, hi]
        rw [this]
        exact hinv

/-- With `loop` on, in every state reached from construction with
`firstFrameIndex < n` by calls without delay and timer firings, `isPlaying`
is true exactly when a timer is pending, and that timer is then the one tick
whose id is in `animationFrameId`. -/
theorem loop_playing_iff_tick_pending (o : Options) (n : Nat) (hloop : o.loop = true)
    (hfirst : o.firstFrameIndex < n) (as : List Action) (has : ∀ a ∈ as, a.noDelay = true) :
    TickInv (runActions (construct o n) as) ∧
    ((runActions (construct o n) as).isPlaying = true ↔
      (runActions (construct o n) as).timers ≠ []) ∧
    (runActions (construct o n) as).timers.length ≤ 1 := by
  have gen : ∀ (as : List Action) (p : Player), (∀ a ∈ as, a.noDelay = true) →
      LoopInRange n p → TickInv p → TickInv (runActions p as) := by
    intro as
    induction as with
    | nil => intro p _ _ hp; exact hp
    | cons a as ih =>
      intro p has hr hp
      exact ih _ (fun b hb => has b (List.mem_cons_of_mem _ hb))
        (run_loopInRange n p a hr)
        (run_tickInv n p a (has a (List.mem_cons_self _ _)) hr hp)
  have h0 : TickInv (construct o n) := ⟨fun h => by simp [construct] at h, fun _ => rfl⟩
  have hinv := gen as (construct o n) has ⟨hloop, rfl, hfirst⟩ h0
  refine ⟨hinv, ⟨fun hp => ?_, fun ht => ?_⟩, ?_⟩
  · obtain ⟨id, -, htm⟩ := hinv.1 hp
    simp [htm]
  · by_contra hp
    exact ht (hinv.2 (by simpa using hp))
  · cases hp : (runActions (construct o n) as).isPlaying with
    | true =>
      obtain ⟨id, -, htm⟩ := hinv.1 hp
      simp [htm]
    | false => simp [hinv.2 hp]

/-- C18, counterexample: `togglePlay(5)` is called on a paused player and
`play()` is called before the timer fires. The timer then runs `play()`,
which leaves the player playing, whereas `togglePlay()` called at that moment
would pause it. -/
theorem delayed_toggle_counterexample :
    (runActions (construct ⟨true, 0, true, true⟩ 3)
      [Action.togglePlay 5, Action.play 0]).isPlaying = true ∧
    (fire (runActions (construct ⟨true, 0, true, true⟩ 3)
      [Action.togglePlay 5, Action.play 0]) 0).state.isPlaying = true ∧
    (togglePlay { runActions (construct ⟨true, 0, true, true⟩ 3)
        [Action.togglePlay 5, Action.play 0] with
      timers := (runActions (construct ⟨true, 0, true, true⟩ 3)
        [Action.togglePlay 5, Action.play 0]).timers.filter (fun u => u.1 != 0) }
      0).state.isPlaying = false := by
  decide

/-- C18, amended: with a delay `d > 0`, `play(d)`, `pause(d)` and `resume(d)`
only enter their own no-delay call in the timer table, and `togglePlay(d)`
enters `pause()` when the player is playing at the time of the call and
`play()` otherwise; entering a timer changes no playback state; and when a
timer with one of these tasks fires, the effect is that of the no-delay call
of that task in the state of that moment. -/
theorem delayed_call_defers (p : Player) (d : Nat) (hd : d ≠ 0) :
    play p d = { state := (setTimeout p TimerTask.play).2, threw := false } ∧
    pause p d = (setTimeout p TimerTask.pause).2 ∧
    resume p d = { state := (setTimeout p TimerTask.resume).2, threw := false } ∧
    togglePlay p d = { state := (setTimeout p
      (if p.isPlaying = true then TimerTask.pause else TimerTask.play)).2, threw := false } ∧
    (∀ task,
      (setTimeout p task).2.currentFrameIndex = p.currentFrameIndex ∧
      (setTimeout p task).2.isPlaying = p.isPlaying ∧
      (setTimeout p task).2.animationFrameId = p.animationFrameId ∧
      (setTimeout p task).2.log = p.log ∧
      (setTimeout p task).2.timers = p.timers ++ [(p.nextTimerId, task)]) ∧
    (∀ (q : Player) (id : Nat),
      (q.timers.find? (fun t => t.1 == id) = some (id, TimerTask.play) →
        fire q id = play { q with timers := q.timers.filter (fun u => u.1 != id) } 0) ∧
      (q.timers.find? (fun t => t.1 == id) = some (id, TimerTask.pause) →
        fire q id = { state := pause { q with timers := q.timers.filter (fun u => u.1 != id) } 0,
                      threw := false }) ∧
      (q.timers.find? (fun t => t.1 == id) = some (id, TimerTask.resume) →
        fire q id = resume { q with timers := q.timers.filter (fun u => u.1 != id) } 0)) := by
  refine ⟨by simp [play, hd], by simp [pause, hd], by simp [resume, hd], ?_, ?_, ?_⟩
  · cases hp : p.isPlaying <;> simp [togglePlay, hp, play, pause, hd]
  · intro task
    simp [setTimeout]
  · intro q id
    refine ⟨fun h => ?_, fun h => ?_, fun h => ?_⟩ <;> simp [fire, h]

/-- A witness for C18 as amended: `play(5)` on a new player enters the
deferred `play()` under the timer id 0. -/
theorem delayed_call_defers_witness :
    play (construct ⟨true, 0, true, true⟩ 3) 5
      = { state := (setTimeout (construct ⟨true, 0, true, true⟩ 3) TimerTask.play).2,
          threw := false } :=
  (delayed_call_defers (construct ⟨true, 0, true, true⟩ 3) 5 (by decide)).1

theorem playFrame_effect (n : Nat) (p : Player) (h : LoopInRange n p) :
    (playFrame p).state.options = p.options ∧
    (playFrame p).state.imageCount = p.imageCount ∧
    (playFrame p).state.currentFrameIndex = (p.currentFrameIndex + 1) % n ∧
    (playFrame p).state.log = p.log ++ (frameEvents p.options p.currentFrameIndex ++
      (if p.currentFrameIndex + 1 = n ∧ p.options.onLoop = true then [Event.onLoop]
        else [])) := by
  obtain ⟨h1, h2, h3⟩ := h
  rw [playFrame_loop p h1 (by omega)]
  refine ⟨rfl, rfl, ?_, ?_⟩
  · show (p.currentFrameIndex + 1) % p.imageCount = _
    rw [h2]
  · show p.log ++ frameEvents p.options p.currentFrameIndex ++ _ = _
    rw [h2, List.append_assoc]

theorem pause_effect (p : Player) (d : Nat) :
    (pause p d).options = p.options ∧ (pause p d).imageCount = p.imageCount ∧
    (pause p d).currentFrameIndex = p.currentFrameIndex ∧ (pause p d).log = p.log := by
  unfold pause pauseNow
  split
  · exact ⟨rfl, rfl, rfl, rfl⟩
  · split
    · exact ⟨rfl, rfl, rfl, rfl⟩
    · cases hid : p.animationFrameId <;> simp [clearTimeout, hid]

theorem stepEffect_of_playFrame (n : Nat) (p q : Player) (a : Action)
    (hq : LoopInRange n q) (hrun : a.run p = playFrame q) (hex : a.executesPlayFrame p = true)
    (ho : q.options = p.options) (hc : q.imageCount = p.imageCount)
    (hi : q.currentFrameIndex = p.currentFrameIndex) (hl : q.log = p.log) :
    StepEffect n p a := by
  obtain ⟨e1, e2, e3, e4⟩ := playFrame_effect n q hq
  unfold StepEffect
  rw [hrun, hex, if_pos rfl, if_pos rfl, e1, e2, e3, e4, ho, hc, hi, hl]
  exact ⟨rfl, rfl, rfl, rfl⟩

theorem stepEffect_of_same (n : Nat) (p : Player) (a : Action)
    (hex : a.executesPlayFrame p = false)
    (h : (a.run p).state.options = p.options ∧ (a.run p).state.imageCount = p.imageCount ∧
      (a.run p).state.currentFrameIndex = p.currentFrameIndex ∧
      (a.run p).state.log = p.log) : StepEffect n p a := by
  unfold StepEffect
  rw [hex]
  simp only [Bool.false_eq_true, if_false, List.append_nil]
  exact h

theorem stepEffect_play (n : Nat) (p : Player) (d : Nat) (h : LoopInRange n p) :
    StepEffect n p (Action.play d) := by
  by_cases hd : d = 0
  · subst hd
    cases hp : p.isPlaying with
    | true =>
      apply stepEffect_of_same
      · simp [Action.executesPlayFrame, hp]
      · simp [Action.run, play, hp]
    | false =>
      apply stepEffect_of_playFrame n p { p with isPlaying := true } _ h
      · simp [Action.run, play, hp]
      · simp [Action.executesPlayFrame, hp]
      all_goals rfl
  · apply stepEffect_of_same
    · simp [Action.executesPlayFrame, hd]
    · simp [Action.run, play, hd, setTimeout]

theorem stepEffect_pause (n : Nat) (p : Player) (d : Nat) :
    StepEffect n p (Action.pause d) := by
  apply stepEffect_of_same
  · rfl
  · exact pause_effect p d

theorem stepEffect_resume (n : Nat) (p : Player) (d : Nat) (h : LoopInRange n p) :
    StepEffect n p (Action.resume d) := by
  by_cases hd : d = 0
  · subst hd
    cases hp : p.isPlaying with
    | true =>
      apply stepEffect_of_same
      · simp [Action.executesPlayFrame, hp]
      · simp [Action.run, resume, hp]
    | false =>
      apply stepEffect_of_playFrame n p { p with isPlaying := true } _ h
      · simp [Action.run, resume, play, hp]
      · simp [Action.executesPlayFrame, hp]
      all_goals rfl
  · apply stepEffect_of_same
    · simp [Action.executesPlayFrame, hd]
    · simp [Action.run, resume, hd, setTimeout]

theorem stepEffect_togglePlay (n : Nat) (p : Player) (d : Nat) (h : LoopInRange n p) :
    StepEffect n p (Action.togglePlay d) := by
  cases hp : p.isPlaying with
  | true =>
    apply stepEffect_of_same
    · simp [Action.executesPlayFrame, hp]
    · have : (Action.togglePlay d).run p = { state := pause p d, threw := false } := by
        simp [Action.run, togglePlay, hp]
      rw [this]
      exact pause_effect p d
  | false =>
    by_cases hd : d = 0
    · subst hd
      apply stepEffect_of_playFrame n p { p with isPlaying := true } _ h
      · simp [Action.run, togglePlay, play, hp]
      · simp [Action.executesPlayFrame, hp]
      all_goals rfl
    · apply stepEffect_of_same
      · simp [Action.executesPlayFrame, hd]
      · simp [Action.run, togglePlay, play, hp, hd, setTimeout]

theorem stepEffect_fire (n : Nat) (p : Player) (id : Nat) (h : LoopInRange n p) :
    StepEffect n p (Action.fire id) := by
  cases hf : p.timers.find? (fun t => t.1 == id) with
  | none =>
    apply stepEffect_of_same
    · simp [Action.executesPlayFrame, hf]
    · simp [Action.run, fire, hf]
  | some t =>
    obtain ⟨tid, task⟩ := t
    have hq : LoopInRange n { p with timers := p.timers.filter (fun u => u.1 != id) } := h
    cases task with
    | playFrame =>
      apply stepEffect_of_playFrame n p _ _ hq
      · simp [Action.run, fire, hf]
      · simp [Action.executesPlayFrame, hf]
      all_goals rfl
    | play =>
      cases hp : p.isPlaying with
      | true =>
        apply stepEffect_of_same
        · simp [Action.executesPlayFrame, hf, hp]
        · simp [Action.run, fire, hf, play, hp]
      | false =>
        apply stepEffect_of_playFrame n p
          { p with timers := p.timers.filter (fun u => u.1 != id), isPlaying := true } _ h
        · simp [Action.run, fire, hf, play, hp]
        · simp [Action.executesPlayFrame, hf, hp]
        all_goals rfl
    | pause =>
      apply stepEffect_of_same
      · simp [Action.executesPlayFrame, hf]
      · have : (Action.fire id).run p =
            { state := pause { p with timers := p.timers.filter (fun u => u.1 != id) } 0,
              threw := false } := by
          simp [Action.run, fire, hf]
        rw [this]
        exact pause_effect _ 0
    | resume =>
      cases hp : p.isPlaying with
      | true =>
        apply stepEffect_of_same
        · simp [Action.executesPlayFrame, hf, hp]
        · simp [Action.run, fire, hf, resume, hp]
      | false =>
        apply stepEffect_of_playFrame n p
          { p with timers := p.timers.filter (fun u => u.1 != id), isPlaying := true } _ h
        · simp [Action.run, fire, hf, resume, play, hp]
        · simp [Action.executesPlayFrame, hf, hp]
        all_goals rfl

theorem stepEffect_run (n : Nat) (p : Player) (a : Action) (h : LoopInRange n p) :
    StepEffect n p a := by
  cases a with
  | play d => exact stepEffect_play n p d h
  | pause d => exact stepEffect_pause n p d
  | resume d => exact stepEffect_resume n p d h
  | togglePlay d => exact stepEffect_togglePlay n p d h
  | fire id => exact stepEffect_fire n p id h

theorem run_playbackAt (o : Options) (n m : Nat) (hloop : o.loop = true) (hn : 0 < n)
    (p : Player) (a : Action) (h : PlaybackAt o n m p) :
    PlaybackAt o n (m + if a.executesPlayFrame p = true then 1 else 0) (a.run p).state := by
  obtain ⟨ho, hc, hcur, hlog⟩ := h
  have hr : LoopInRange n p :=
    ⟨by rw [ho]; exact hloop, hc, by rw [hcur]; exact Nat.mod_lt _ hn⟩
  obtain ⟨e1, e2, e3, e4⟩ := stepEffect_run n p a hr
  refine ⟨by rw [e1, ho], by rw [e2, hc], ?_, ?_⟩
  · rw [e3]
    by_cases hex : a.executesPlayFrame p = true
    · rw [if_pos hex, if_pos hex, hcur, ← Nat.add_assoc,
        Nat.add_mod ((o.firstFrameIndex + m) % n) 1, Nat.mod_mod, ← Nat.add_mod]
    · rw [if_neg hex, if_neg hex, hcur]
      rfl
  · rw [e4]
    by_cases hex : a.executesPlayFrame p = true
    · rw [if_pos hex, if_pos hex, hlog, ho, hcur, ← List.append_assoc]
      rfl
    · rw [if_neg hex, if_neg hex, hlog, List.append_nil]
      rfl

theorem runActions_playbackAt (o : Options) (n : Nat) (hloop : o.loop = true) (hn : 0 < n) :
    ∀ (as : List Action) (p : Player) (m : Nat), PlaybackAt o n m p →
      PlaybackAt o n (m + playFrameCount p as) (runActions p as) := by
  intro as
  induction as with
  | nil => intro p m hp; exact hp
  | cons a as ih =>
    intro p m hp
    have h1 := ih _ _ (run_playbackAt o n m hloop hn p a hp)
    rw [Nat.add_assoc] at h1
    exact h1

theorem renderedFrames_playbackLog (o : Options) (n f m : Nat) :
    renderedFrames (playbackLog o n f m) = (List.range m).map (fun i => (f + i) % n) := by
  induction m with
  | zero => simp [playbackLog, renderedFrames]
  | succ m ih =>
    rw [playbackLog, renderedFrames_append, renderedFrames_append, ih,
      renderedFrames_frameEvents, List.range_succ, List.map_append]
    by_cases h : (f + m) % n + 1 = n ∧ o.onLoop = true
    · simp [h, renderedFrames]
    · simp [h, renderedFrames]

theorem notifiedFrames_playbackLog (o : Options) (n f m : Nat) (hon : o.onFrameChange = true) :
    notifiedFrames (playbackLog o n f m) = (List.range m).map (fun i => (f + i) % n) := by
  induction m with
  | zero => simp [playbackLog, notifiedFrames]
  | succ m ih =>
    have happ : ∀ l₁ l₂ : List Event,
        notifiedFrames (l₁ ++ l₂) = notifiedFrames l₁ ++ notifiedFrames l₂ := by
      intro l₁ l₂
      simp [notifiedFrames, List.filterMap_append]
    rw [playbackLog, happ, happ, ih, List.range_succ, List.map_append]
    by_cases h : (f + m) % n + 1 = n ∧ o.onLoop = true
    · simp [h, notifiedFrames, frameEvents, hon]
    · simp [h, notifiedFrames, frameEvents, hon]

theorem filter_playbackLog (o : Options) (n f m : Nat) :
    (playbackLog o n f m).filter (fun e => e != Event.onLoop)
      = ((List.range m).map (fun i => (f + i) % n)).flatMap (frameEvents o) := by
  induction m with
  | zero => simp [playbackLog]
  | succ m ih =>
    have hfe : ∀ i, (frameEvents o i).filter (fun e => e != Event.onLoop) = frameEvents o i := by
      intro i
      cases h : o.onFrameChange <;> simp [frameEvents, h]
    rw [playbackLog, List.filter_append, List.filter_append, ih, hfe, List.range_succ,
      List.map_append, List.flatMap_append]
    by_cases h : (f + m) % n + 1 = n ∧ o.onLoop = true
    · simp [h]
    · simp [h]

/-- C20: with `loop` on and `firstFrameIndex = f < N`, after any sequence of
`play`, `pause`, `resume`, `togglePlay` calls and timer firings in which
`playFrame` was executed `m` times, the frames rendered are the `m` frames
`f, f + 1, f + 2, ...` taken modulo `N`, without a gap or a repetition, and
`currentFrameIndex` is the next one of this sequence; apart from the `onLoop`
notifications the log consists of the events of one `renderFrame` per
rendered index, and with an `onFrameChange` callback installed the notified
indices are the rendered indices, in the same order. Every further action
that executes `playFrame` (a tick, or a `play()` or `resume()` that starts
playback) logs exactly the events of one `renderFrame(currentFrameIndex)`,
one draw and one notification with that index, followed by `onLoop` after
the last frame, and every other action logs nothing. -/
theorem loop_playback_sequence (o : Options) (n : Nat) (hloop : o.loop = true)
    (hfirst : o.firstFrameIndex < n) (as : List Action) :
    renderedFrames (runActions (construct o n) as).log
      = (List.range (playFrameCount (construct o n) as)).map
          (fun i => (o.firstFrameIndex + i) % n) ∧
    (runActions (construct o n) as).currentFrameIndex
      = (o.firstFrameIndex + playFrameCount (construct o n) as) % n ∧
    (runActions (construct o n) as).log.filter (fun e => e != Event.onLoop)
      = (renderedFrames (runActions (construct o n) as).log).flatMap (frameEvents o) ∧
    (o.onFrameChange = true →
      notifiedFrames (runActions (construct o n) as).log
        = renderedFrames (runActions (construct o n) as).log) ∧
    (∀ a : Action,
      (a.run (runActions (construct o n) as)).state.log
        = (runActions (construct o n) as).log ++
          (if a.executesPlayFrame (runActions (construct o n) as) = true then
            [Event.clearRect,
              Event.drawImage (runActions (construct o n) as).currentFrameIndex] ++
            (if o.onFrameChange = true then
              [Event.onFrameChange (runActions (construct o n) as).currentFrameIndex]
              else []) ++
            (if (runActions (construct o n) as).currentFrameIndex + 1 = n ∧ o.onLoop = true
              then [Event.onLoop] else [])
          else [])) := by
  have hn : 0 < n := by omega
  have h0 : PlaybackAt o n 0 (construct o n) :=
    ⟨rfl, rfl, by simp [construct, Nat.mod_eq_of_lt hfirst], rfl⟩
  have hat := runActions_playbackAt o n hloop hn as _ 0 h0
  rw [Nat.zero_add] at hat
  obtain ⟨ho, hc, hcur, hlog⟩ := hat
  refine ⟨?_, hcur, ?_, ?_, ?_⟩
  · rw [hlog, renderedFrames_playbackLog]
  · rw [hlog, filter_playbackLog, renderedFrames_playbackLog]
  · intro hon
    rw [hlog, notifiedFrames_playbackLog _ _ _ _ hon, renderedFrames_playbackLog]
  · intro a
    have hr : LoopInRange n (runActions (construct o n) as) :=
      ⟨by rw [ho]; exact hloop, hc, by rw [hcur]; exact Nat.mod_lt _ hn⟩
    obtain ⟨-, -, -, e4⟩ := stepEffect_run n _ a hr
    rw [e4, ho]
    by_cases hex : a.executesPlayFrame (runActions (construct o n) as) = true
    · rw [if_pos hex, if_pos hex]
      cases hfc : o.onFrameChange <;> simp [frameEvents, hfc]
    · rw [if_neg hex, if_neg hex]

/-- A witness for C20: three frames, `firstFrameIndex = 1`; `play()`, two
ticks, `pause()`, `resume()` and one more tick execute `playFrame` 5 times
and render 1, 2, 0, 1, 2. -/
theorem loop_playback_sequence_witness :
    playFrameCount (construct ⟨true, 1, true, true⟩ 3)
      [Action.play 0, Action.fire 0, Action.fire 1, Action.pause 0, Action.resume 0,
        Action.fire 3] = 5 ∧
    renderedFrames (runActions (construct ⟨true, 1, true, true⟩ 3)
      [Action.play 0, Action.fire 0, Action.fire 1, Action.pause 0, Action.resume 0,
        Action.fire 3]).log
      = (List.range (playFrameCount (construct ⟨true, 1, true, true⟩ 3)
          [Action.play 0, Action.fire 0, Action.fire 1, Action.pause 0, Action.resume 0,
            Action.fire 3])).map (fun i => (1 + i) % 3) :=
  ⟨by decide,
    (loop_playback_sequence ⟨true, 1, true, true⟩ 3 rfl (by decide)
      [Action.play 0, Action.fire 0, Action.fire 1, Action.pause 0, Action.resume 0,
        Action.fire 3]).1⟩

/-- What `obURLsToArray` does with two names that each have a rightmost digit
run: the template test, the padding test, and then the loop. -/
theorem obURLsToArray_split (P₁ S₁ a P₂ S₂ b : JSString) (every : Nat)
    (ha : IsLastDigitRun P₁ a S₁) (hb : IsLastDigitRun P₂ b S₂)
    (hP₁ : NoLineTerminator P₁) (hP₂ : NoLineTerminator P₂) :
    obURLsToArray ⟨some (P₁ ++ a ++ S₁), some (P₂ ++ b ++ S₂)⟩ every =
      if P₁ ≠ P₂ ∨ S₁ ≠ S₂ then some []
      else if ((charAt0EqZero a || charAt0EqZero b) && a.length != b.length) = true then some []
      else pushLoop P₁ S₁ a.length every (parseInt b) (loopFuel (parseInt a) (parseInt b))
        (parseInt a) [] := by
  unfold obURLsToArray
  simp only [falsy_append P₁ a S₁ ha.1, falsy_append P₂ b S₂ hb.1, Bool.or_self,
    Bool.false_eq_true, if_false, lastNumber_eq P₁ a S₁ ha hP₁, lastNumber_eq P₂ b S₂ hb hP₂,
    if_neg ha.1, if_neg hb.1, basenameBefore_eq P₁ a S₁ ha hP₁, basenameBefore_eq P₂ b S₂ hb hP₂,
    basenameAfter_eq P₁ a S₁ ha, basenameAfter_eq P₂ b S₂ hb]

/-- C11: for two names without line terminator in the text before their
rightmost digit runs, if the texts before the runs differ or the texts after
the runs differ, `obURLsToArray` returns the empty list, for every step. -/
theorem template_mismatch_rejected (P₁ S₁ a P₂ S₂ b : JSString) (every : Nat)
    (ha : IsLastDigitRun P₁ a S₁) (hb : IsLastDigitRun P₂ b S₂)
    (hP₁ : NoLineTerminator P₁) (hP₂ : NoLineTerminator P₂)
    (hdiff : P₁ ≠ P₂ ∨ S₁ ≠ S₂) :
    obURLsToArray ⟨some (P₁ ++ a ++ S₁), some (P₂ ++ b ++ S₂)⟩ every = some [] := by
  rw [obURLsToArray_split P₁ S₁ a P₂ S₂ b every ha hb hP₁ hP₂, if_pos hdiff]

/-- A witness for C11: `a1_x.png` and `a2_y.png` give the empty list. -/
theorem template_mismatch_rejected_witness :
    obURLsToArray ⟨some "a1_x.png".toList, some "a2_y.png".toList⟩ 1 = some [] :=
  template_mismatch_rejected "a".toList "_x.png".toList "1".toList "a".toList "_y.png".toList
    "2".toList 1 (by decide) (by decide) (by decide) (by decide) (by decide)

theorem lastNumberAt_no_digit (s : JSString) (hs : ∀ c ∈ s, isDigit c = false) :
    lastNumberAt s = none := by
  unfold lastNumberAt
  rw [takeWhile_eq_nil_of_all_false isDigit s hs]
  rfl

theorem lastNumber_no_digit (s : JSString) (hs : ∀ c ∈ s, isDigit c = false) :
    lastNumber s = [] := by
  have hsearch : search lastNumberAt s = none := by
    induction s with
    | nil => exact lastNumberAt_no_digit [] hs
    | cons c s ih =>
      rw [search, lastNumberAt_no_digit (c :: s) hs]
      exact ih (fun d hd => hs d (List.mem_cons_of_mem _ hd))
  unfold lastNumber
  rw [hsearch]

/-- C12: when `from` or `to` is absent or the empty string, or is a string
without a decimal digit, `obURLsToArray` returns the empty list, for every
step. -/
theorem missing_or_digitless_rejected (info : Info) (every : Nat)
    (h : falsy info.first = true ∨ falsy info.last = true ∨
      (∃ s, info.first = some s ∧ ∀ c ∈ s, isDigit c = false) ∨
      (∃ s, info.last = some s ∧ ∀ c ∈ s, isDigit c = false)) :
    obURLsToArray info every = some [] := by
  obtain ⟨first, last⟩ := info
  unfold obURLsToArray
  by_cases hf : (falsy first || falsy last) = true
  · rw [if_pos hf]
  · rw [if_neg hf]
    simp only [Bool.or_eq_true, not_or, Bool.not_eq_true] at hf
    cases first with
    | none => rfl
    | some f =>
      cases last with
      | none => rfl
      | some l =>
        rcases h with h | h | ⟨s, hs, hd⟩ | ⟨s, hs, hd⟩
        · rw [hf.1] at h; cases h
        · rw [hf.2] at h; cases h
        · obtain rfl : f = s := Option.some.inj hs
          simp only [lastNumber_no_digit f hd, if_true]
        · obtain rfl : l = s := Option.some.inj hs
          simp only [lastNumber_no_digit l hd, if_true]
          split <;> rfl

/-- A witness for C12: `a.png` and `b.png` give the empty list. -/
theorem missing_or_digitless_rejected_witness :
    obURLsToArray ⟨some "a.png".toList, some "b.png".toList⟩ 1 = some [] :=
  missing_or_digitless_rejected ⟨some "a.png".toList, some "b.png".toList⟩ 1
    (Or.inr (Or.inr (Or.inl ⟨"a.png".toList, rfl, by decide⟩)))

theorem exists_lastDigitRun (s : JSString) (h : ∃ c ∈ s, isDigit c = true) :
    ∃ P a S, s = P ++ a ++ S ∧ IsLastDigitRun P a S := by
  induction s with
  | nil => simp at h
  | cons c s ih =>
    by_cases hs : ∃ d ∈ s, isDigit d = true
    · obtain ⟨P, a, S, rfl, ha, had, hS, hP⟩ := ih hs
      cases P with
      | nil =>
        by_cases hc : isDigit c = true
        · refine ⟨[], c :: a, S, rfl, by simp, ?_, hS, by simp⟩
          intro d hd
          rcases List.mem_cons.1 hd with rfl | hd
          · exact hc
          · exact had d hd
        · refine ⟨[c], a, S, rfl, ha, had, hS, ?_⟩
          intro d hd
          simp only [List.getLast?_singleton, Option.mem_def, Option.some.injEq] at hd
          subst hd
          simpa using hc
      | cons p P =>
        refine ⟨c :: p :: P, a, S, rfl, ha, had, hS, ?_⟩
        intro d hd
        apply hP d
        rw [Option.mem_def] at hd ⊢
        rw [← hd]
        simp [List.getLast?_cons_cons]
    · have hc : isDigit c = true := by
        obtain ⟨d, hd, hdd⟩ := h
        rcases List.mem_cons.1 hd with rfl | hd
        · exact hdd
        · exact absurd ⟨d, hd, hdd⟩ hs
      refine ⟨[], [c], s, rfl, by simp, ?_, ?_, by simp⟩
      · intro d hd
        rw [List.mem_singleton] at hd
        subst hd
        exact hc
      · intro d hd
        by_contra hdd
        exact hs ⟨d, hd, by simpa using hdd⟩

/-- C19: for a string `s` without line terminator that contains a decimal
digit, the three helpers split `s` at its rightmost maximal run of digits:
`before ++ run ++ after = s` with `run = lastNumber s`, the run is a
non-empty string of digits, `before` does not end in a digit and `after`
contains no digit. -/
theorem helpers_split_at_last_run (s : JSString) (hl : NoLineTerminator s)
    (hd : ∃ c ∈ s, isDigit c = true) :
    basenameBefore s (lastNumber s) ++ lastNumber s ++ basenameAfter s (lastNumber s) = s ∧
    IsLastDigitRun (basenameBefore s (lastNumber s)) (lastNumber s)
      (basenameAfter s (lastNumber s)) := by
  obtain ⟨P, a, S, rfl, ha⟩ := exists_lastDigitRun s hd
  have hP : NoLineTerminator P := by
    intro c hc
    exact hl c (by simp [hc])
  rw [lastNumber_eq P a S ha hP, basenameBefore_eq P a S ha hP, basenameAfter_eq P a S ha]
  exact ⟨rfl, ha⟩

/-- A witness for C19: `img2_100.png` splits into `img2_`, `100` and
`.png`. -/
theorem helpers_split_at_last_run_witness :
    lastNumber "img2_100.png".toList = "100".toList ∧
    basenameBefore "img2_100.png".toList "100".toList = "img2_".toList ∧
    basenameAfter "img2_100.png".toList "100".toList = ".png".toList ∧
    IsLastDigitRun (basenameBefore "img2_100.png".toList (lastNumber "img2_100.png".toList))
      (lastNumber "img2_100.png".toList)
      (basenameAfter "img2_100.png".toList (lastNumber "img2_100.png".toList)) :=
  ⟨by decide, by decide, by decide,
    (helpers_split_at_last_run "img2_100.png".toList (by decide) (by decide)).2⟩

theorem toDigitsCore_eq : ∀ (n fuel : Nat) (ds : List Char), n < fuel →
    Nat.toDigitsCore 10 fuel n ds =
      (if n / 10 = 0 then [] else Nat.toDigits 10 (n / 10)) ++ Nat.digitChar (n % 10) :: ds := by
  intro n
  induction n using Nat.strong_induction_on with
  | _ n ih =>
    intro fuel ds hfuel
    cases fuel with
    | zero => omega
    | succ fuel =>
      unfold Nat.toDigitsCore
      by_cases h0 : n / 10 = 0
      · simp [h0]
      · have hlt : n / 10 < n := Nat.div_lt_self (by omega) (by omega)
        simp only [h0, if_false]
        rw [ih (n / 10) hlt fuel _ (by omega)]
        have h2 : Nat.toDigits 10 (n / 10) =
            (if n / 10 / 10 = 0 then [] else Nat.toDigits 10 (n / 10 / 10)) ++
              [Nat.digitChar (n / 10 % 10)] := by
          unfold Nat.toDigits
          exact ih (n / 10) hlt (n / 10 + 1) [] (by omega)
        rw [h2]
        simp

theorem decimal_eq (n : Nat) :
    decimal n =
      (if n / 10 = 0 then [] else decimal (n / 10)) ++ [Nat.digitChar (n % 10)] := by
  unfold decimal
  exact toDigitsCore_eq n (n + 1) [] (by omega)

theorem decimal_length_mono : ∀ (m n : Nat), n ≤ m →
    (decimal n).length ≤ (decimal m).length := by
  intro m
  induction m using Nat.strong_induction_on with
  | _ m ih =>
    intro n hnm
    rw [decimal_eq n, decimal_eq m]
    by_cases hm : m / 10 = 0
    · have hn : n / 10 = 0 := by omega
      simp [hm, hn]
    · by_cases hn : n / 10 = 0
      · simp [hn]
      · have hlt : m / 10 < m := Nat.div_lt_self (by omega) (by omega)
        have := ih (m / 10) hlt (n / 10) (Nat.div_le_div_right hnm)
        simp [hm, hn, this]

theorem isDigit_bounds (c : Char) (h : isDigit c = true) : 48 ≤ c.toNat ∧ c.toNat ≤ 57 := by
  simp only [isDigit, Char.isDigit, Bool.and_eq_true, decide_eq_true_eq] at h
  exact ⟨h.1, h.2⟩

theorem digitChar_of_isDigit (c : Char) (h : isDigit c = true) :
    Nat.digitChar (c.toNat - 48) = c := by
  obtain ⟨h1, h2⟩ := isDigit_bounds c h
  have hc : c = Char.ofNat c.toNat := (Char.ofNat_toNat c).symm
  generalize c.toNat = n at h1 h2 hc
  subst hc
  interval_cases n <;> rfl

theorem mathInt_eq_foldl (a : JSString) (had : ∀ c ∈ a, isDigit c = true) :
    mathInt a = a.foldl (fun n c => 10 * n + (c.toNat - 48)) 0 := by
  unfold mathInt
  rw [List.takeWhile_eq_self_iff.2 had]

theorem mathInt_concat (a : JSString) (c : Char) (had : ∀ d ∈ a ++ [c], isDigit d = true) :
    mathInt (a ++ [c]) = 10 * mathInt a + (c.toNat - 48) := by
  rw [mathInt_eq_foldl _ had,
    mathInt_eq_foldl a (fun d hd => had d (List.mem_append_left _ hd)), List.foldl_append]
  rfl

theorem eq_replicate_of_mathInt_zero (a : JSString) (had : ∀ c ∈ a, isDigit c = true)
    (h0 : mathInt a = 0) : a = List.replicate a.length '0' := by
  induction a using List.reverseRecOn with
  | nil => rfl
  | append_singleton a c ih =>
    rw [mathInt_concat a c had] at h0
    have hc := had c (by simp)
    have ha : ∀ d ∈ a, isDigit d = true := fun d hd => had d (List.mem_append_left _ hd)
    have hd := digitChar_of_isDigit c hc
    have hz : c.toNat - 48 = 0 := by omega
    rw [hz] at hd
    have hc0 : c = '0' := hd.symm
    rw [List.length_append, List.length_singleton, List.replicate_succ', ← ih ha (by omega), hc0]

/-- Padding the decimal form of the value of a digit string to the length of
the string gives the string back. -/
theorem padStart_mathInt (a : JSString) (had : ∀ c ∈ a, isDigit c = true) (ha : a ≠ []) :
    padStart (decimal (mathInt a)) a.length '0' = a := by
  induction a using List.reverseRecOn with
  | nil => exact absurd rfl ha
  | append_singleton a c ih =>
    have hc := had c (by simp)
    have hda : ∀ d ∈ a, isDigit d = true := fun d hd => had d (List.mem_append_left _ hd)
    obtain ⟨h1, h2⟩ := isDigit_bounds c hc
    have hdiv : (10 * mathInt a + (c.toNat - 48)) / 10 = mathInt a := by omega
    have hmod : (10 * mathInt a + (c.toNat - 48)) % 10 = c.toNat - 48 := by omega
    rw [mathInt_concat a c had, decimal_eq, hdiv, hmod, digitChar_of_isDigit c hc]
    by_cases h0 : mathInt a = 0
    · rw [if_pos h0]
      unfold padStart
      simp only [List.nil_append, List.length_singleton, List.length_append,
        Nat.add_sub_cancel]
      rw [← eq_replicate_of_mathInt_zero a hda h0]
    · rw [if_neg h0]
      have hne : a ≠ [] := by
        rintro rfl
        exact h0 rfl
      have hih := ih hda hne
      unfold padStart at hih ⊢
      simp only [List.length_append, List.length_singleton, Nat.add_sub_add_right]
      rw [← List.append_assoc, hih]

theorem decimal_mathInt (b : JSString) (hbd : ∀ c ∈ b, isDigit c = true) (hb : b ≠ [])
    (hz : b.head? ≠ some '0') : decimal (mathInt b) = b := by
  have h := padStart_mathInt b hbd hb
  unfold padStart at h
  cases hk : b.length - (decimal (mathInt b)).length with
  | zero => simpa [hk] using h
  | succ k =>
    rw [hk] at h
    exfalso
    apply hz
    rw [← h]
    simp [List.replicate_succ]

theorem obURLsToArray_digitless (f l : JSString) (every : Nat)
    (h : (∀ c ∈ f, isDigit c = false) ∨ (∀ c ∈ l, isDigit c = false)) :
    obURLsToArray ⟨some f, some l⟩ every = some [] := by
  unfold obURLsToArray
  split
  · rfl
  · rcases h with h | h
    · simp only [lastNumber_no_digit f h, if_true]
    · simp only [lastNumber_no_digit l h, if_true]
      split <;> rfl

theorem expectedNames_step_one (P S : JSString) (w numA numB : Nat) (h : numA ≤ numB) :
    (expectedNames P S w numA numB 1).head?
      = some (P ++ padStart (decimal numA) w '0' ++ S) ∧
    (expectedNames P S w numA numB 1).getLast?
      = some (P ++ padStart (decimal numB) w '0' ++ S) := by
  unfold expectedNames rangeCount
  rw [if_pos h, Nat.div_one]
  refine ⟨?_, ?_⟩
  · rw [List.range'_succ]
    rfl
  · rw [List.range'_concat, List.map_append, List.map_singleton, List.getLast?_concat]
    have e : numA + 1 * (numB - numA) = numB := by omega
    rw [e]

theorem padStart_last (a b : JSString) (had : ∀ c ∈ a, isDigit c = true)
    (hbd : ∀ c ∈ b, isDigit c = true) (ha : a ≠ []) (hb : b ≠ [])
    (hle : mathInt a ≤ mathInt b)
    (hpad : ¬ ((a.head? = some '0' ∨ b.head? = some '0') ∧ a.length ≠ b.length)) :
    padStart (decimal (mathInt b)) a.length '0' = b := by
  by_cases hlen : a.length = b.length
  · rw [hlen]
    exact padStart_mathInt b hbd hb
  · have hza : a.head? ≠ some '0' := fun h => hpad ⟨Or.inl h, hlen⟩
    have hzb : b.head? ≠ some '0' := fun h => hpad ⟨Or.inr h, hlen⟩
    have ea := decimal_mathInt a had ha hza
    have eb := decimal_mathInt b hbd hb hzb
    have hmono := decimal_length_mono (mathInt b) (mathInt a) hle
    rw [ea, eb] at hmono
    rw [eb]
    unfold padStart
    rw [Nat.sub_eq_zero_of_le hmono]
    rfl

/-- C13, counterexample: the name `x9007199254740992.png` has no line
terminator and contains a decimal digit, and with it as first and last name
`obURLsToArray` does not return the one name: the digit run has the value
`2 ^ 53`, the sum `i + 1` rounds back to `i`, and the loop gives no result,
whatever the number of evaluations. -/
theorem same_name_counterexample :
    NoLineTerminator "x9007199254740992.png".toList ∧
    (∃ c ∈ "x9007199254740992.png".toList, isDigit c = true) ∧
    lastNumber "x9007199254740992.png".toList = "9007199254740992".toList ∧
    basenameBefore "x9007199254740992.png".toList "9007199254740992".toList = "x".toList ∧
    basenameAfter "x9007199254740992.png".toList "9007199254740992".toList = ".png".toList ∧
    obURLsToArray ⟨some "x9007199254740992.png".toList,
      some "x9007199254740992.png".toList⟩ 1 = none ∧
    ∀ (fuel : Nat) (out : List JSString),
      pushLoop "x".toList ".png".toList 16 1 (parseInt "9007199254740992".toList) fuel
        (parseInt "9007199254740992".toList) out = none := by
  refine ⟨by decide, by decide, by decide, by decide, by decide, by decide, ?_⟩
  exact pushLoop_stall _ _ _ _ _ _ (by decide) (by decide)

/-- C13, amended: for two names without line terminators, the digit run of
the last name having a value below `2 ^ 53`, whenever `obURLsToArray` with
step 1 returns a non-empty list, the first element of the list is the first
name and the last element is the last name; and for a name `f` without line
terminators that contains a decimal digit, its last digit run having a value
below `2 ^ 53`, the pair `f`, `f` gives the one-element list `[f]`. -/
theorem first_and_last_names :
    (∀ (first last : JSString) (l : List JSString),
      NoLineTerminator first → NoLineTerminator last →
      mathInt (lastNumber last) < 2 ^ 53 →
      obURLsToArray ⟨some first, some last⟩ 1 = some l → l ≠ [] →
      l.head? = some first ∧ l.getLast? = some last) ∧
    (∀ f : JSString, NoLineTerminator f → (∃ c ∈ f, isDigit c = true) →
      mathInt (lastNumber f) < 2 ^ 53 →
      obURLsToArray ⟨some f, some f⟩ 1 = some [f]) := by
  refine ⟨?_, ?_⟩
  · intro first last l hf hl hbound hres hne
    have hnil : obURLsToArray ⟨some first, some last⟩ 1 ≠ some [] := by
      rw [hres]
      intro h
      exact hne (Option.some.inj h)
    have hfd : ∃ c ∈ first, isDigit c = true := by
      by_contra h
      apply hnil
      apply obURLsToArray_digitless
      left
      intro c hc
      by_contra hd
      exact h ⟨c, hc, by simpa using hd⟩
    have hld : ∃ c ∈ last, isDigit c = true := by
      by_contra h
      apply hnil
      apply obURLsToArray_digitless
      right
      intro c hc
      by_contra hd
      exact h ⟨c, hc, by simpa using hd⟩
    obtain ⟨P₁, a, S₁, rfl, ha⟩ := exists_lastDigitRun first hfd
    obtain ⟨P₂, b, S₂, rfl, hb⟩ := exists_lastDigitRun last hld
    have hP₁ : NoLineTerminator P₁ := fun c hc => hf c (by simp [hc])
    have hP₂ : NoLineTerminator P₂ := fun c hc => hl c (by simp [hc])
    rw [lastNumber_eq P₂ b S₂ hb hP₂] at hbound
    rw [obURLsToArray_split P₁ S₁ a P₂ S₂ b 1 ha hb hP₁ hP₂] at hres hnil
    by_cases hdiff : P₁ ≠ P₂ ∨ S₁ ≠ S₂
    · rw [if_pos hdiff] at hnil
      exact absurd rfl hnil
    · rw [if_neg hdiff] at hres hnil
      have hP : P₁ = P₂ := by
        by_contra h
        exact hdiff (Or.inl h)
      have hS : S₁ = S₂ := by
        by_contra h
        exact hdiff (Or.inr h)
      subst hP hS
      by_cases hpad : ((charAt0EqZero a || charAt0EqZero b) && a.length != b.length) = true
      · rw [if_pos hpad] at hnil
        exact absurd rfl hnil
      · rw [if_neg hpad, pushLoop_parseInt P₁ S₁ a b 1 (by omega) hbound] at hres
        have hl' : l = expectedNames P₁ S₁ a.length (mathInt a) (mathInt b) 1 :=
          (Option.some.inj hres).symm
        have hle : mathInt a ≤ mathInt b := by
          by_contra hgt
          apply hne
          rw [hl']
          unfold expectedNames rangeCount
          rw [if_neg hgt]
          rfl
        rw [padding_test_iff] at hpad
        obtain ⟨h1, h2⟩ := expectedNames_step_one P₁ S₁ a.length (mathInt a) (mathInt b) hle
        rw [hl', h1, h2, padStart_mathInt a ha.2.1 ha.1,
          padStart_last a b ha.2.1 hb.2.1 ha.1 hb.1 hle hpad]
        exact ⟨rfl, rfl⟩
  · intro f hf hfd hbound
    obtain ⟨P, a, S, rfl, ha⟩ := exists_lastDigitRun f hfd
    have hP : NoLineTerminator P := fun c hc => hf c (by simp [hc])
    rw [lastNumber_eq P a S ha hP] at hbound
    rw [obURLsToArray_split P S a P S a 1 ha ha hP hP, if_neg (by simp), if_neg (by simp),
      pushLoop_parseInt P S a a 1 (by omega) hbound]
    unfold expectedNames rangeCount
    rw [if_pos (le_refl _), Nat.sub_self, Nat.zero_div, List.range'_succ]
    simp [padStart_mathInt a ha.2.1 ha.1]

/-- A witness for C13 as amended: `img5.png` to `img5.png` gives the one name
`img5.png`, and in the result of `img1.png` to `img3.png` the first element
is `img1.png` and the last is `img3.png`. -/
theorem first_and_last_names_witness :
    obURLsToArray ⟨some "img5.png".toList, some "img5.png".toList⟩ 1
      = some ["img5.png".toList] ∧
    (["img1.png".toList, "img2.png".toList, "img3.png".toList].head?
        = some "img1.png".toList ∧
      ["img1.png".toList, "img2.png".toList, "img3.png".toList].getLast?
        = some "img3.png".toList) :=
  ⟨first_and_last_names.2 "img5.png".toList (by decide) (by decide) (by decide),
    first_and_last_names.1 "img1.png".toList "img3.png".toList
      ["img1.png".toList, "img2.png".toList, "img3.png".toList]
      (by decide) (by decide) (by decide) (by decide) (by decide)⟩

/-! ## Theorems: loading -/

theorem renderFrame_imageCount (p : Player) (i : Nat) :
    (renderFrame p i).state.imageCount = p.imageCount := by
  unfold renderFrame
  split <;> rfl

theorem pause_imageCount (p : Player) (d : Nat) : (pause p d).imageCount = p.imageCount := by
  unfold pause pauseNow
  split
  · rfl
  · split
    · rfl
    · cases hid : p.animationFrameId <;> simp [clearTimeout, hid]

theorem playFrame_imageCount (p : Player) : (playFrame p).state.imageCount = p.imageCount := by
  unfold playFrame
  simp only
  split
  · exact renderFrame_imageCount p _
  · split
    · split
      · split <;> exact renderFrame_imageCount p _
      · rw [pause_imageCount]
        exact renderFrame_imageCount p _
    · exact renderFrame_imageCount p _

theorem play_imageCount (p : Player) (d : Nat) : (play p d).state.imageCount = p.imageCount := by
  unfold play
  split
  · rfl
  · split
    · rfl
    · exact playFrame_imageCount _

theorem readyPlayer_imageCount (o : Options) (lo : LoadOptions) (n : Nat) :
    (readyPlayer o lo n).imageCount = n := by
  unfold readyPlayer
  simp only
  split
  · rw [play_imageCount]
    split
    · rw [renderFrame_imageCount]; rfl
    · rfl
  · split
    · rw [renderFrame_imageCount]; rfl
    · rfl

theorem handleImageLoad_not_last (pl : Player) (lo : LoadOptions) (k : Nat)
    (log : List LoadEvent) (i : Nat) (h : k + 1 ≠ pl.imageCount) :
    handleImageLoad ⟨pl, lo, k, log⟩ i =
      (⟨pl, lo, k + 1, log ++
        (if lo.onLoadProgress then
          [LoadEvent.onLoadProgress (((k + 1 : Nat) : ℚ) / (pl.imageCount : ℚ))] else [])⟩,
        false) := by
  unfold handleImageLoad
  cases hp : lo.onLoadProgress <;> simp [hp, h]

theorem handleImageLoad_last (o : Options) (lo : LoadOptions) (n k : Nat)
    (log : List LoadEvent) (i : Nat) (h : k + 1 = n) (hfirst : o.firstFrameIndex < n) :
    (handleImageLoad ⟨construct o n, lo, k, log⟩ i).1 =
      ⟨readyPlayer o lo n, lo, k + 1, log ++
        (if lo.onLoadProgress then
          [LoadEvent.onLoadProgress (((k + 1 : Nat) : ℚ) / (n : ℚ))] else []) ++
        ((if lo.sizeToFirstImage then [LoadEvent.sizeCanvas o.firstFrameIndex] else []) ++
          (if lo.onLoad then [LoadEvent.onLoad] else []))⟩ := by
  have hc : (construct o n).imageCount = n := rfl
  have ho : (construct o n).options = o := rfl
  have hr : (renderFrame (construct o n) o.firstFrameIndex).threw = false := by
    simp [renderFrame, hc, hfirst]
  unfold handleImageLoad readyPlayer
  cases hp : lo.onLoadProgress <;> cases hs : lo.sizeToFirstImage <;> cases hl : lo.onLoad <;>
    cases hrf : lo.renderFirstImageOnLoad <;> cases hpl : lo.playOnLoad <;>
    simp [hp, hs, hl, hrf, hpl, h, hc, ho, hfirst, hr]

theorem completeLoads_eq (o : Options) (lo : LoadOptions) (n : Nat)
    (hfirst : o.firstFrameIndex < n) (done : List Nat) :
    completeLoads (startLoading o lo n) done =
      ⟨if done.length < n then construct o n else readyPlayer o lo n, lo, done.length,
        loadLogAfter o lo n done.length⟩ := by
  induction done using List.reverseRecOn with
  | nil =>
    have hn : 0 < n := by omega
    simp [completeLoads, startLoading, hn, loadLogAfter]
  | append_singleton done i ih =>
    have hstep : completeLoads (startLoading o lo n) (done ++ [i]) =
        (handleImageLoad (completeLoads (startLoading o lo n) done) i).1 := by
      simp [completeLoads, List.foldl_append]
    rw [hstep, ih, List.length_append, List.length_singleton]
    rcases Nat.lt_trichotomy (done.length + 1) n with hlt | heq | hgt
    · have h1 : done.length < n := by omega
      rw [if_pos h1, if_pos hlt,
        handleImageLoad_not_last _ lo _ _ i (by show done.length + 1 ≠ n; omega)]
      simp [loadLogAfter, Nat.ne_of_lt hlt, construct]
    · have h1 : done.length < n := by omega
      rw [if_pos h1, if_neg (by omega), handleImageLoad_last o lo n _ _ i heq hfirst]
      simp [loadLogAfter, heq]
    · have h1 : ¬ done.length < n := by omega
      rw [if_neg h1, if_neg (by omega),
        handleImageLoad_not_last _ lo _ _ i
          (by rw [readyPlayer_imageCount]; omega)]
      have hne : ¬ done.length + 1 = n := by omega
      simp [loadLogAfter, hne, readyPlayer_imageCount]

theorem progressFractions_append (l₁ l₂ : List LoadEvent) :
    progressFractions (l₁ ++ l₂) = progressFractions l₁ ++ progressFractions l₂ := by
  simp [progressFractions, List.filterMap_append]

theorem progressFractions_loadLogAfter (o : Options) (lo : LoadOptions) (n k : Nat) :
    progressFractions (loadLogAfter o lo n k) =
      if lo.onLoadProgress then (List.range k).map (fun i => ((i + 1 : Nat) : ℚ) / (n : ℚ))
      else [] := by
  induction k with
  | zero => simp [loadLogAfter, progressFractions]
  | succ k ih =>
    rw [loadLogAfter, progressFractions_append, progressFractions_append, ih, List.range_succ,
      List.map_append]
    by_cases hk : k + 1 = n
    · rw [if_pos hk]
      cases hp : lo.onLoadProgress <;> cases hs : lo.sizeToFirstImage <;>
        cases hl : lo.onLoad <;> simp [progressFractions]
    · rw [if_neg hk]
      cases hp : lo.onLoadProgress <;> simp [progressFractions]

theorem count_onLoad_loadLogAfter (o : Options) (lo : LoadOptions) (n k : Nat) (hn : 0 < n) :
    (loadLogAfter o lo n k).count LoadEvent.onLoad =
      if n ≤ k ∧ lo.onLoad = true then 1 else 0 := by
  induction k with
  | zero =>
    have : ¬ n ≤ 0 := by omega
    simp [loadLogAfter, this]
  | succ k ih =>
    rw [loadLogAfter, List.count_append, List.count_append, ih]
    rcases Nat.lt_trichotomy (k + 1) n with hlt | heq | hgt
    · have h1 : ¬ n ≤ k := by omega
      have h2 : ¬ n ≤ k + 1 := by omega
      have h3 : ¬ k + 1 = n := by omega
      cases hp : lo.onLoadProgress <;> simp [h1, h2, h3]
    · have h1 : ¬ n ≤ k := by omega
      have h2 : n ≤ k + 1 := by omega
      cases hp : lo.onLoadProgress <;> cases hs : lo.sizeToFirstImage <;>
        cases hl : lo.onLoad <;> simp [h1, h2, heq]
    · have h1 : n ≤ k := by omega
      have h2 : n ≤ k + 1 := by omega
      have h3 : ¬ k + 1 = n := by omega
      cases hp : lo.onLoadProgress <;> cases hl : lo.onLoad <;> simp [h1, h2, h3]

/-- C17, counterexample: one image, `firstFrameIndex = 1`, render and
auto-play on load both asked for. The one completion reports the fraction 1,
the render of frame 1 throws, and `play()` is not reached: the player is not
playing and no frame was drawn. -/
theorem ready_actions_counterexample :
    (handleImageLoad (startLoading ⟨false, 1, false, false⟩ ⟨true, true, true, true, false⟩ 1)
      0).2 = true ∧
    (completeLoads (startLoading ⟨false, 1, false, false⟩ ⟨true, true, true, true, false⟩ 1)
      [0]).player.isPlaying = false ∧
    renderedFrames (completeLoads (startLoading ⟨false, 1, false, false⟩
      ⟨true, true, true, true, false⟩ 1) [0]).player.log = [] := by
  simp [handleImageLoad, completeLoads, startLoading, construct, renderFrame, renderedFrames]

/-- C17, amended: for `N ≥ 1` images with `firstFrameIndex < N`, after the
load completions `done`, in whatever order and for whatever images, the
fractions reported to an installed `onLoadProgress` are `1/N, 2/N, ...`, one
per completion; as long as fewer than `N` completions have arrived the player
is as constructed and `onLoad` has not been called; from the `N`-th
completion on `onLoad` has been called exactly once (when installed) and the
player is the one the optional render of the first frame and the optional
`play()` leave. The fraction `k/N` lies in `(0, 1]`, grows with `k` and is 1
exactly for `k = N`. -/
theorem load_completions (o : Options) (lo : LoadOptions) (n : Nat)
    (hfirst : o.firstFrameIndex < n) (done : List Nat) :
    progressFractions (completeLoads (startLoading o lo n) done).loadLog =
      (if lo.onLoadProgress then
        (List.range done.length).map (fun i => ((i + 1 : Nat) : ℚ) / (n : ℚ))
      else []) ∧
    (done.length < n →
      (completeLoads (startLoading o lo n) done).player = construct o n ∧
      (completeLoads (startLoading o lo n) done).loadLog.count LoadEvent.onLoad = 0) ∧
    (n ≤ done.length →
      (completeLoads (startLoading o lo n) done).player = readyPlayer o lo n ∧
      (completeLoads (startLoading o lo n) done).loadLog.count LoadEvent.onLoad =
        if lo.onLoad then 1 else 0) ∧
    (∀ k : Nat, 1 ≤ k → k ≤ n →
      0 < (k : ℚ) / (n : ℚ) ∧ (k : ℚ) / (n : ℚ) ≤ 1 ∧ ((k : ℚ) / (n : ℚ) = 1 ↔ k = n)) ∧
    (∀ j k : Nat, j < k → (j : ℚ) / (n : ℚ) < (k : ℚ) / (n : ℚ)) := by
  have hn : 0 < n := by omega
  have hnq : (0 : ℚ) < (n : ℚ) := by exact_mod_cast hn
  rw [completeLoads_eq o lo n hfirst done]
  refine ⟨progressFractions_loadLogAfter o lo n _, ?_, ?_, ?_, ?_⟩
  · intro hlt
    refine ⟨if_pos hlt, ?_⟩
    show (loadLogAfter o lo n done.length).count LoadEvent.onLoad = 0
    rw [count_onLoad_loadLogAfter o lo n _ hn, if_neg (by omega)]
  · intro hge
    refine ⟨if_neg (by omega), ?_⟩
    show (loadLogAfter o lo n done.length).count LoadEvent.onLoad = _
    rw [count_onLoad_loadLogAfter o lo n _ hn]
    cases hl : lo.onLoad <;> simp [hge]
  · intro k hk1 hkn
    have hkq : (0 : ℚ) < (k : ℚ) := by exact_mod_cast hk1
    have hle : (k : ℚ) ≤ (n : ℚ) := by exact_mod_cast hkn
    refine ⟨div_pos hkq hnq, (div_le_one hnq).2 hle, ?_⟩
    rw [div_eq_one_iff_eq (ne_of_gt hnq)]
    exact_mod_cast Iff.rfl
  · intro j k hjk
    have : (j : ℚ) < (k : ℚ) := by exact_mod_cast hjk
    exact div_lt_div_of_pos_right this hnq

/-- A witness for C17 as amended: two images complete in the order 1, 0; the
fractions reported are 1/2 and 1. -/
theorem load_completions_witness :
    progressFractions (completeLoads
      (startLoading ⟨false, 0, true, true⟩ ⟨true, true, true, false, false⟩ 2) [1, 0]).loadLog
      = [1 / 2, 1] := by
  rw [(load_completions ⟨false, 0, true, true⟩ ⟨true, true, true, false, false⟩ 2 (by decide)
    [1, 0]).1]
  norm_num [List.range_succ]

end ImageSequenceCanvasPlayer
